import Mathlib

/-!
# Scene cache of IECoreHoudini (`src/IECoreHoudini/SceneCacheNode.cpp`)

A shallow embedding of the path resolution, transform composition, hierarchy
enumeration and file-store logic of `SceneCacheNode` / `SceneCacheUtil::Cache`,
followed by theorems about that embedding.

Conventions.
* `std::string` is `String`; `std::vector<std::string>` is `List String`, and a
  `push_back` is an append at the end of the list.
* A C++ exception is the `error` case of `Except Exception`.
* The transform type `Imath::M44d` is a type parameter `M` carrying a
  multiplication, so that nothing depends on how doubles round.
* The per-file mutex and the scoped lock held by an `Entry` are not part of the
  sequential state; they have no effect on the values computed here.
-/

namespace SceneCacheNode

/-! ## Data model -/

/-- The exceptions that the modelled code can raise. -/
inductive Exception where
  /-- Raised by the `SceneCache` constructor when the file cannot be opened. -/
  | cannotOpen (fileName : String)
  /-- Raised by `readableChild` on the node at `path` when it has no child `name`. -/
  | noSuchChild (path : String) (name : String)
  /-- The `filesystem_error` that `boost::filesystem::exists( path )` raises when the
  status of `path` cannot be determined (any failure other than not-found). -/
  | filesystemError (path : String)
  deriving DecidableEq, Repr

/-- Modelled from the spec: the contents of one node of a hierarchical-scene
archive (`HierarchyNode` in the spec; the on-disk data behind an
`IECore::SceneCache`, whose class is not among the sources). A node has a local
name, a local transform, a payload flag and its children in on-disk order. -/
inductive HierarchyNode (M : Type) where
  | mk (name : String) (transform : M) (hasObject : Bool)
      (children : List (HierarchyNode M)) : HierarchyNode M

namespace HierarchyNode

variable {M : Type}

/-- Local name of the node. -/
def name : HierarchyNode M → String
  | mk n _ _ _ => n

/-- Local transform of the node. -/
def transform : HierarchyNode M → M
  | mk _ t _ _ => t

/-- Whether the node carries a payload object. -/
def hasObject : HierarchyNode M → Bool
  | mk _ _ h _ => h

/-- Children of the node, in on-disk order. -/
def children : HierarchyNode M → List (HierarchyNode M)
  | mk _ _ _ cs => cs

end HierarchyNode

/-- Modelled from the spec: an `IECore::SceneCache` handle (the class is not
among the sources). It designates one node of an opened archive and knows the
absolute path of that node: `"/"` for the root of the file, and the parent's
path, a `'/'` and the child's name below it. -/
structure SceneCache (M : Type) where
  /-- Absolute path of the designated node, as returned by `path()`. -/
  path : String
  /-- The designated node. -/
  node : HierarchyNode M

namespace SceneCache

variable {M : Type}

/-- Modelled from the spec: `SceneCache::name()`, the local name of the node. -/
def name (c : SceneCache M) : String := c.node.name

/-- Modelled from the spec: `SceneCache::hasObject()`. -/
def hasObject (c : SceneCache M) : Bool := c.node.hasObject

/-- Modelled from the spec: `SceneCache::readTransform()`, the local transform. -/
def readTransform (c : SceneCache M) : M := c.node.transform

/-- Modelled from the spec: `SceneCache::childNames()`, the ordered list of the
names of the children. -/
def childNames (c : SceneCache M) : List String := c.node.children.map HierarchyNode.name

/-- Modelled from the spec: the absolute path of the child called `name` of a
node whose absolute path is `parent`; the root contributes the empty prefix. -/
def childPath (parent : String) (name : String) : String :=
  (if parent = "/" then "" else parent) ++ "/" ++ name

/-- Modelled from the spec: `SceneCache::readableChild( name )`, exact
case-sensitive lookup of a child by name; a missing child is a hard failure. -/
def readableChild (c : SceneCache M) (name : String) : Except Exception (SceneCache M) :=
  match c.node.children.find? (fun k => k.name == name) with
  | some k => .ok ⟨childPath c.path name, k⟩
  | none => .error (.noSuchChild c.path name)

end SceneCache

/-! ## Path tokenizer -/

/-- Model of one pass of `boost::tokenizer< boost::char_separator<char> >` built
with `boost::char_separator<char>( "/" )`: `'/'` is a dropped delimiter and empty
tokens are dropped. `cur` is the token being accumulated. -/
def tokenizeAux : List Char → List Char → List String
  | cur, [] => if cur = [] then [] else [String.mk cur]
  | cur, c :: cs =>
    if c = '/' then
      if cur = [] then tokenizeAux [] cs else String.mk cur :: tokenizeAux [] cs
    else tokenizeAux (cur ++ [c]) cs

/-- The token sequence `Tokenizer tokens( path, boost::char_separator<char>( "/" ) )`. -/
def Tokenizer (path : String) : List String := tokenizeAux [] path.data

/-! ## Hierarchy enumeration (`SceneCacheNode<BaseType>`) -/

variable {M : Type}

/-- The method `SceneCacheNode<BaseType>::descendantNames( cache, descendants )`: the
first loop appends the path of every child, the second loop recurses into every
child in turn. The result is the final contents of `descendants`. -/
def descendantNames (cache : SceneCache M) (descendants : List String) :
    Except Exception (List String) :=
  let children := cache.childNames
  let current := if cache.path = "/" then "" else cache.path
  let descendants := descendants ++ children.map (fun it => current ++ "/" ++ it)
  children.foldlM
    (fun descendants it =>
      match h : cache.readableChild it with
      | .ok child => descendantNames child descendants
      | .error e => .error e)
    descendants
termination_by sizeOf cache.node
decreasing_by
  have hmem : child.node ∈ cache.node.children := by
    unfold SceneCache.readableChild at h
    split at h
    · next k0 hk =>
      cases h
      exact List.mem_of_find?_eq_some hk
    · cases h
  have hlt := List.sizeOf_lt_of_mem hmem
  cases hn : cache.node with
  | mk nm t ho cs =>
    rw [hn] at hlt
    simp only [HierarchyNode.children] at hlt
    simp only [HierarchyNode.mk.sizeOf_spec]
    omega

/-- The method `SceneCacheNode<BaseType>::objectNames( cache, objects )`: the name of
the node is appended when it has an object, then every child is visited in turn.
The result is the final contents of `objects`. -/
def objectNames (cache : SceneCache M) (objects : List String) :
    Except Exception (List String) :=
  let objects := if cache.hasObject then objects ++ [cache.name] else objects
  cache.childNames.foldlM
    (fun objects it =>
      match h : cache.readableChild it with
      | .ok child => objectNames child objects
      | .error e => .error e)
    objects
termination_by sizeOf cache.node
decreasing_by
  have hmem : child.node ∈ cache.node.children := by
    unfold SceneCache.readableChild at h
    split at h
    · next k0 hk =>
      cases h
      exact List.mem_of_find?_eq_some hk
    · cases h
  have hlt := List.sizeOf_lt_of_mem hmem
  cases hn : cache.node with
  | mk nm t ho cs =>
    rw [hn] at hlt
    simp only [HierarchyNode.children] at hlt
    simp only [HierarchyNode.mk.sizeOf_spec]
    omega

/-! ## The file store (`SceneCacheUtil::Cache`) -/

/-- The files that can be opened: a file name is mapped to the root node of the
archive it holds, or to `none` when there is no readable archive of that name. -/
abbrev FileSystem (M : Type) := String → Option (HierarchyNode M)

/-- The struct `SceneCacheUtil::Cache::FileAndMutex`; only the opened file is kept. -/
structure FileAndMutex (M : Type) where
  /-- The root handle of the opened file. -/
  file : SceneCache M

/-- Modelled from the spec: the constructor call
`new SceneCache( fileName, IndexedIO::Read )`, which gives the root handle of the
archive, whose path is `"/"`, or fails when the file cannot be opened. -/
def SceneCache.openRead (fs : FileSystem M) (fileName : String) :
    Except Exception (SceneCache M) :=
  match fs fileName with
  | some root => .ok ⟨"/", root⟩
  | none => .error (.cannotOpen fileName)

/-- The static method `SceneCacheUtil::Cache::fileCacheGetter( fileName, cost )`; the second
component of the result is the value written to `cost`. -/
def fileCacheGetter (fs : FileSystem M) (fileName : String) :
    Except Exception (FileAndMutex M × Nat) :=
  match SceneCache.openRead fs fileName with
  | .ok file => .ok (⟨file⟩, 1)
  | .error e => .error e

/-- Modelled from the spec: the store `IECore::LRUCache` (its class is not among the
sources). It keeps the resident entries with their costs, most recently used
first, together with the loader and the maximum total cost given at construction. -/
structure LRUCache (W K V : Type) where
  /-- The loader called on a miss; it reads the outside world `W`. -/
  getter : W → K → Except Exception (V × Nat)
  /-- The maximum total cost of the resident entries. -/
  maxCost : Nat
  /-- The resident entries (key, value, cost), most recently used first. -/
  entries : List (K × V × Nat)

namespace LRUCache

variable {W K V : Type}

/-- Modelled from the spec: the total cost of the resident entries. -/
def currentCost (c : LRUCache W K V) : Nat := (c.entries.map (fun e => e.2.2)).sum

/-- Modelled from the spec: eviction of least recently used entries down to the
capacity: the longest most-recently-used prefix whose total cost fits `budget`. -/
def limitCost (budget : Nat) : List (K × V × Nat) → List (K × V × Nat)
  | [] => []
  | e :: es => if e.2.2 ≤ budget then e :: limitCost (budget - e.2.2) es else []

/-- Modelled from the spec: `LRUCache::get( key )`. A resident entry is returned (and
becomes the most recently used one); otherwise the loader is called, and its
result is inserted with its cost and returned, evicting down to the capacity. A
failing loader inserts nothing. -/
def get [DecidableEq K] (c : LRUCache W K V) (w : W) (key : K) :
    Except Exception V × LRUCache W K V :=
  match c.entries.find? (fun e => e.1 = key) with
  | some e => (.ok e.2.1, { c with entries := e :: c.entries.filter (fun x => x.1 ≠ key) })
  | none =>
    match c.getter w key with
    | .error ex => (.error ex, c)
    | .ok (v, cost) =>
      (.ok v, { c with entries := limitCost c.maxCost ((key, v, cost) :: c.entries) })

/-- Modelled from the spec: `LRUCache::erase( key )`, which drops the entry of `key`. -/
def erase [DecidableEq K] (c : LRUCache W K V) (key : K) : LRUCache W K V :=
  { c with entries := c.entries.filter (fun x => x.1 ≠ key) }

end LRUCache

/-- The class `SceneCacheUtil::Cache::Entry`: the file it belongs to and the node reached in
it. The scoped lock member is not part of the sequential state. -/
structure Entry (M : Type) where
  /-- The member `m_fileAndMutex`. -/
  m_fileAndMutex : FileAndMutex M
  /-- The member `m_entry`. -/
  m_entry : SceneCache M

/-- The method `SceneCacheUtil::Cache::Entry::sceneCache()`. -/
def Entry.sceneCache (e : Entry M) : SceneCache M := e.m_entry

/-- The class `SceneCacheUtil::Cache`, whose only member is the file store. -/
structure Cache (M : Type) where
  /-- The member `m_fileCache`. -/
  m_fileCache : LRUCache (FileSystem M) String (FileAndMutex M)

namespace Cache

/-- The constructor `SceneCacheUtil::Cache::Cache()`, which builds
`m_fileCache( fileCacheGetter, 200 )`. -/
def new : Cache M := ⟨⟨fileCacheGetter, 200, []⟩⟩

/-- The method `SceneCacheUtil::Cache::entry( fileName, path )`. The second component is the
store after the call. -/
def entry (c : Cache M) (fs : FileSystem M) (fileName path : String) :
    Except Exception (Entry M) × Cache M :=
  match c.m_fileCache.get fs fileName with
  | (.error e, fileCache) => (.error e, ⟨fileCache⟩)
  | (.ok f, fileCache) =>
    let result : Entry M := ⟨f, f.file⟩
    ((Tokenizer path).foldlM
      (fun (result : Entry M) tIt =>
        match result.m_entry.readableChild tIt with
        | .ok child => Except.ok { result with m_entry := child }
        | .error e => Except.error e)
      result, ⟨fileCache⟩)

/-- The method `SceneCacheUtil::Cache::worldTransform( fileName, path )`. The loop state is the
pair of `cache` and `result`. -/
def worldTransform [Mul M] (c : Cache M) (fs : FileSystem M) (fileName path : String) :
    Except Exception M × Cache M :=
  match c.entry fs fileName "/" with
  | (.error e, c1) => (.error e, c1)
  | (.ok thisEntry, c1) =>
    let cache := thisEntry.sceneCache
    let result := cache.readTransform
    (((Tokenizer path).foldlM
      (fun (st : SceneCache M × M) tIt =>
        match st.1.readableChild tIt with
        | .ok cache => Except.ok (cache, cache.readTransform * st.2)
        | .error e => Except.error e)
      (cache, result)).map Prod.snd, c1)

/-- The method `SceneCacheUtil::Cache::erase( fileName )`. -/
def erase (c : Cache M) (fileName : String) : Cache M := ⟨c.m_fileCache.erase fileName⟩

end Cache

/-! ## Notions used to state the properties -/

/-- The non-empty segments of a path, in the words of the specification: the
path is split on `'/'` and the empty pieces are ignored. -/
def segments (path : String) : List String :=
  ((path.data.splitOn '/').filter (fun s => s ≠ [])).map String.mk

/-- Descent from `start` by exact child lookup, once per segment, from left to
right. -/
def descend (start : SceneCache M) (segs : List String) : Except Exception (SceneCache M) :=
  segs.foldlM (fun node s => node.readableChild s) start

/-- A small archive: the root has the children `a` and `b`, and `a` has the
single child `c`. Only `c` carries a payload. -/
def sampleRoot : HierarchyNode Nat :=
  .mk "/" 0 false [.mk "a" 1 false [.mk "c" 3 true []], .mk "b" 2 false []]

/-- A file system holding the sample archive under the name `scene.mdc`. -/
def sampleFiles : FileSystem Nat :=
  fun fileName => if fileName = "scene.mdc" then some sampleRoot else none

/-- The child called `n` as `readableChild` returns it, if there is one. -/
def SceneCache.childOf (c : SceneCache M) (n : String) : Option (SceneCache M) :=
  match c.readableChild n with
  | .ok child => some child
  | .error _ => none

/-- The children of a node as its interface presents them: the handle that
`readableChild` returns for each name of `childNames`, in that order. -/
def SceneCache.children (c : SceneCache M) : List (SceneCache M) :=
  c.childNames.filterMap c.childOf

/-- The handle of the child node `k` of the node designated by `c`. -/
def SceneCache.handleOf (c : SceneCache M) (k : HierarchyNode M) : SceneCache M :=
  ⟨SceneCache.childPath c.path k.name, k⟩

mutual
/-- The recursion that the enumeration is claimed to follow, on the node itself:
the paths of the children in child order, then the listings of the children in
child order. `path` is the absolute path of the node. -/
def descendantPaths (path : String) : HierarchyNode M → List String
  | .mk _ _ _ cs =>
    cs.map (fun k => SceneCache.childPath path k.name) ++ descendantPathsList path cs
/-- The listings of the nodes `ks`, children of the node at `path`, one after the other. -/
def descendantPathsList (path : String) : List (HierarchyNode M) → List String
  | [] => []
  | k :: ks =>
    descendantPaths (SceneCache.childPath path k.name) k ++ descendantPathsList path ks
end

mutual
/-- Sibling names are pairwise distinct everywhere in the subtree, as in any
archive: a child is identified by its name under its parent. -/
def HierarchyNode.uniqueNames : HierarchyNode M → Bool
  | .mk _ _ _ cs => decide (cs.map HierarchyNode.name).Nodup && uniqueNamesList cs
/-- The predicate `uniqueNames` on every node of a list. -/
def uniqueNamesList : List (HierarchyNode M) → Bool
  | [] => true
  | k :: ks => k.uniqueNames && uniqueNamesList ks
end

/-- One step of the second loop of `descendantNames` and of the loop of `objectNames`. -/
def visitChild (cache : SceneCache M)
    (visit : SceneCache M → List String → Except Exception (List String))
    (acc : List String) (it : String) : Except Exception (List String) :=
  match cache.readableChild it with
  | .ok child => visit child acc
  | .error e => .error e

mutual
/-- Depth-first pre-order of a subtree: the node first, then the subtree of each
child in child order. -/
def HierarchyNode.preorder : HierarchyNode M → List (HierarchyNode M)
  | .mk n t h cs => .mk n t h cs :: preorderList cs
/-- The pre-orders of the nodes of a list, one after the other. -/
def preorderList : List (HierarchyNode M) → List (HierarchyNode M)
  | [] => []
  | k :: ks => k.preorder ++ preorderList ks
end

/-- The local names of the nodes of a subtree that carry a payload, in depth-first
pre-order. -/
def HierarchyNode.payloadNames (node : HierarchyNode M) : List String :=
  (node.preorder.filter (fun k => k.hasObject)).map HierarchyNode.name

/-- A usable child name: not empty and without `'/'`. -/
def validName (n : String) : Bool := decide (n ≠ "") && decide ('/' ∉ n.data)

mutual
/-- Every name below the node (the names of its children, of their children, and
so on) is a usable child name. -/
def HierarchyNode.validNames : HierarchyNode M → Bool
  | .mk _ _ _ cs => validNamesList cs
/-- The names of the nodes of a list and all names below them are usable. -/
def validNamesList : List (HierarchyNode M) → Bool
  | [] => true
  | k :: ks => validName k.name && k.validNames && validNamesList ks
end

/-- The ordering property under test: in the sequence, a path with fewer segments
never comes after a path with more segments. -/
def ShallowerFirst (l : List String) : Prop :=
  l.Pairwise (fun p q => (segments p).length ≤ (segments q).length)

/-- An archive in which the first child of the root is deeper than the second:
`a` has the child `c`, which has the child `d`; `b` has the child `e`. -/
def deepRoot : HierarchyNode Nat :=
  .mk "/" 0 false
    [.mk "a" 0 false [.mk "c" 0 false [.mk "d" 0 false []]], .mk "b" 0 false [.mk "e" 0 false []]]

mutual
/-- The proper descendants of a node in depth-first pre-order, each with the chain
of child names that leads to it from the node. The node itself is not listed. -/
def HierarchyNode.properDescendants : HierarchyNode M → List (List String × HierarchyNode M)
  | .mk _ _ _ cs => properDescendantsList cs
/-- The nodes of a list and their proper descendants, with their chains of names. -/
def properDescendantsList : List (HierarchyNode M) → List (List String × HierarchyNode M)
  | [] => []
  | k :: ks =>
    ([k.name], k) :: k.properDescendants.map (fun d => (k.name :: d.1, d.2)) ++
      properDescendantsList ks
end

/-- The absolute path spelled by a chain of child names from the root of the file:
a `'/'` followed by the names joined with `'/'`. -/
def absolutePath (names : List String) : String := "/" ++ "/".intercalate names

/-- The nodes reached after each segment of a descent from `start`, in the order
in which they are reached. -/
def visited (start : SceneCache M) : List String → Except Exception (List (SceneCache M))
  | [] => .ok []
  | s :: rest =>
    match start.readableChild s with
    | .ok child => (visited child rest).map (fun nodes => child :: nodes)
    | .error e => .error e

/-- A 4x4 matrix with exact integer entries, indexed by row and column as the
array `x[4][4]` of `Imath::M44d`. -/
structure M44 where
  /-- The entries. -/
  x : Fin 4 → Fin 4 → Int

/-- Matrix product, as `Imath::M44d::operator*`: entry `(i, j)` is the sum over `k`
of `a[i][k] * b[k][j]`. -/
def M44.mul (a b : M44) : M44 :=
  ⟨fun i j => a.x i 0 * b.x 0 j + a.x i 1 * b.x 1 j + a.x i 2 * b.x 2 j + a.x i 3 * b.x 3 j⟩

instance : Mul M44 := ⟨M44.mul⟩

/-- The identity matrix. -/
def M44.identity : M44 := ⟨fun i j => if i = j then 1 else 0⟩

/-- The translation by `(tx, ty, tz)`: the identity with the translation in the
last row. -/
def M44.translation (tx ty tz : Int) : M44 :=
  ⟨fun i j =>
    if i = j then 1
    else if i = 3 then (if j = 0 then tx else if j = 1 then ty else if j = 2 then tz else 0)
    else 0⟩

/-- The archive of the transform example: the root has the identity transform,
its child `a` the translation `(1, 0, 0)`, and the child `c` of `a` the
translation `(0, 1, 0)`. -/
def translatedRoot : HierarchyNode M44 :=
  .mk "/" M44.identity false
    [.mk "a" (M44.translation 1 0 0) false [.mk "c" (M44.translation 0 1 0) false []]]

/-- A file system holding the archive of the transform example as `moved.mdc`. -/
def translatedFiles : FileSystem M44 :=
  fun fileName => if fileName = "moved.mdc" then some translatedRoot else none

/-- A call made on the store. -/
inductive Request where
  /-- A call of `Cache::entry( fileName, path )`. -/
  | entry (fileName path : String)
  /-- A call of `Cache::worldTransform( fileName, path )`. -/
  | worldTransform (fileName path : String)
  /-- A call of `Cache::erase( fileName )`. -/
  | erase (fileName : String)

/-- The store after one call, made while the files are `fs`. -/
def Cache.step [Mul M] (c : Cache M) (fs : FileSystem M) : Request → Cache M
  | .entry fileName path => (c.entry fs fileName path).2
  | .worldTransform fileName path => (c.worldTransform fs fileName path).2
  | .erase fileName => c.erase fileName

/-- The store after a sequence of calls, each made on the files of its time. -/
def Cache.run [Mul M] (c : Cache M) (calls : List (FileSystem M × Request)) : Cache M :=
  calls.foldl (fun c r => c.step r.1 r.2) c

/-- The facts that hold of every store built by `Cache::Cache()` and used through
the methods of `Cache`: the loader is `fileCacheGetter`, the maximum cost is 200,
every resident file has cost 1, and at most 200 files are resident. -/
def Cache.Invariant (c : Cache M) : Prop :=
  c.m_fileCache.getter = fileCacheGetter ∧ c.m_fileCache.maxCost = 200 ∧
    (∀ e ∈ c.m_fileCache.entries, e.2.2 = 1) ∧ c.m_fileCache.entries.length ≤ 200

/-! ## Menus and the file parameter (`SceneCacheNode<BaseType>`) -/

/-- A menu item of the host, `PRM_Name`: a token and a label, each a string or
null. An item whose token is null marks the end of a menu. -/
structure PRM_Name where
  /-- The token, `none` for a null pointer. -/
  token : Option String
  /-- The label, `none` for a null pointer. -/
  label : Option String
  deriving DecidableEq, Repr

/-- The call `setToken( s )` on a menu item. -/
def PRM_Name.setToken (item : PRM_Name) (s : Option String) : PRM_Name :=
  ⟨s, item.label⟩

/-- The call `setLabel( s )` on a menu item. -/
def PRM_Name.setLabel (item : PRM_Name) (s : Option String) : PRM_Name :=
  ⟨item.token, s⟩

/-- The array `PRM_Name *menu`, as the item held by each slot. -/
abbrev Menu := Nat → PRM_Name

/-- The assignment of `item` to `menu[pos]`. -/
def Menu.set (menu : Menu) (pos : Nat) (item : PRM_Name) : Menu :=
  fun i => if i = pos then item else menu i

/-- The loop of `createMenu`, from the iterator at the head of the remaining
values and the counter `pos`; it returns the menu and the final `pos`. -/
def createMenuLoop (menu : Menu) (pos : Nat) : List String → Menu × Nat
  | [] => (menu, pos)
  | it :: rest =>
    if pos < 1500 then
      let menu := menu.set pos ((menu pos).setToken (some it))
      let menu := menu.set pos ((menu pos).setLabel (some it))
      createMenuLoop menu (pos + 1) rest
    else (menu, pos)

/-- The method `SceneCacheNode<BaseType>::createMenu( menu, values )`. -/
def createMenu (menu : Menu) (values : List String) : Menu :=
  match createMenuLoop menu 1 values with
  | (menu, pos) => menu.set pos ((menu pos).setToken none)

/-- The last element of a path, as `boost::filesystem::path::filename()` gives it
for generic paths with the separator `'/'`: empty for the empty path, `"/"` for a
path of separators only, `"."` for any other path that ends with a separator,
and what follows the last separator otherwise. -/
def pathFilename (p : List Char) : List Char :=
  if p = [] then []
  else if p.getLast? = some '/' then (if p.all (fun c => c = '/') then ['/'] else ['.'])
  else (p.reverse.takeWhile (fun c => c ≠ '/')).reverse

/-- The extension of a path, as `boost::filesystem::path::extension()` gives it:
when the last element contains a dot and is neither `"."` nor `".."`, its part
from the rightmost dot on; the empty string otherwise. -/
def pathExtension (p : String) : String :=
  let name := pathFilename p.data
  if name = ['.'] ∨ name = ['.', '.'] then ""
  else if '.' ∈ name then String.mk ('.' :: (name.reverse.takeWhile (fun c => c ≠ '.')).reverse)
  else ""

/-- The parameters of a node that the modelled methods read, as their evaluated
string values: `file` (the name `pFile`) and `root` (the name `pRoot`). -/
structure Node where
  /-- The value that `evalString` gives for the parameter `file`. -/
  pFile : String
  /-- The value that `evalString` gives for the parameter `root`. -/
  pRoot : String

/-- The method `SceneCacheNode<BaseType>::getFile()`. -/
def Node.getFile (node : Node) : String :=
  let value := node.pFile
  if value = "" then "/" else value

/-- The method `SceneCacheNode<BaseType>::getPath()`. -/
def Node.getPath (node : Node) : String :=
  let value := node.pRoot
  if value = "" then "/" else value

/-- The method `SceneCacheNode<BaseType>::ensureFile( file )`; the second component is
the value written to `file`, which is assigned before anything can fail. The
function `pathExists` stands for the throwing overload
`boost::filesystem::exists( path )` on the disk of the moment: it answers true or
false, or raises when the status of the path cannot be determined. As the right
operand of `&&` it is called only when the extension is `".mdc"`. -/
def Node.ensureFile (node : Node) (pathExists : String → Except Exception Bool) :
    Except Exception Bool × String :=
  let file := node.getFile
  let filePath := file
  if pathExtension filePath = ".mdc" then
    match pathExists filePath with
    | .ok true => (.ok true, file)
    | .ok false => (.ok false, file)
    | .error e => (.error e, file)
  else (.ok false, file)

/-- The static method `SceneCacheNode<BaseType>::buildRootMenu( data, menu, maxSize, ... )`, with
the process-wide `cache()` as an explicit store. `data` is `none` for a null
pointer. The result is the menu, the store, and the exception that escaped, if
one did. -/
def buildRootMenu (data : Option Node) (menu : Menu) (_maxSize : Int)
    (pathExists : String → Except Exception Bool) (fs : FileSystem M) (cache : Cache M) :
    Menu × Cache M × Except Exception Unit :=
  match data with
  | none => (menu, cache, .ok ())
  | some node =>
    let menu := menu.set 0 ((menu 0).setToken (some "/"))
    let menu := menu.set 0 ((menu 0).setLabel (some "/"))
    match node.ensureFile pathExists with
    | (.error e, _) => (menu, cache, .error e)
    | (.ok false, _) => (menu.set 1 ((menu 1).setToken none), cache, .ok ())
    | (.ok true, file) =>
      match cache.entry fs file "/" with
      | (.error e, cache) => (menu, cache, .error e)
      | (.ok entry, cache) =>
        match descendantNames entry.sceneCache [] with
        | .error e => (menu, cache, .error e)
        | .ok descendants => (createMenu menu descendants, cache, .ok ())

/-- A disk on which the status of `/root/x.mdc` cannot be determined (its directory
cannot be searched) and on which no other path exists. -/
def deniedDisk : String → Except Exception Bool :=
  fun path => if path = "/root/x.mdc" then .error (.filesystemError path) else .ok false

/-- The menu shows exactly the `k` items of the slots before `k`: their tokens are
not null and the token of slot `k` is null. -/
def Menu.Shows (menu : Menu) (k : Nat) : Prop :=
  (∀ j, j < k → (menu j).token ≠ none) ∧ (menu k).token = none

/-! # Theorems -/

/-! ## The tokenizer and the segments of a path -/

theorem modifyHead_of_id {α : Type} (l : List α) (f : α → α) (hf : ∀ x, f x = x) :
    l.modifyHead f = l := by
  cases l <;> simp [List.modifyHead, hf]

theorem tokenizeAux_eq_splitOn (cs cur : List Char) :
    tokenizeAux cur cs =
      ((((cs.splitOn '/').modifyHead (fun x => cur ++ x)).filter (fun s => s ≠ [])).map
        String.mk) := by
  induction cs generalizing cur with
  | nil =>
    by_cases h : cur = [] <;> simp [tokenizeAux, List.splitOn, h]
  | cons c cs ih =>
    by_cases hc : c = '/'
    · subst hc
      have h0 := ih []
      simp only [List.nil_append] at h0
      rw [modifyHead_of_id _ _ (fun _ => rfl)] at h0
      by_cases h : cur = []
      · simp [tokenizeAux, List.splitOn, List.splitOnP_cons, h, h0, List.filter_cons]
      · simp [tokenizeAux, List.splitOn, List.splitOnP_cons, h, h0, List.filter_cons]
    · have h1 := ih (cur ++ [c])
      simp only [tokenizeAux, hc, if_false, h1, List.splitOn, List.splitOnP_cons]
      simp [hc, List.modifyHead_modifyHead, Function.comp_def]

theorem Tokenizer_eq_segments (path : String) : Tokenizer path = segments path := by
  unfold Tokenizer segments
  rw [tokenizeAux_eq_splitOn, modifyHead_of_id _ (fun x => [] ++ x) (fun _ => rfl)]

/-! ## Path resolution -/

theorem readableChild_error_iff (node : SceneCache M) (s : String) (e : Exception) :
    node.readableChild s = .error e ↔ s ∉ node.childNames ∧ e = .noSuchChild node.path s := by
  unfold SceneCache.readableChild SceneCache.childNames
  cases h : node.node.children.find? (fun k => k.name == s) with
  | none =>
    simp only [List.find?_eq_none, beq_iff_eq, Bool.not_eq_true] at h
    simp only [Except.error.injEq, List.mem_map, not_exists, not_and]
    constructor
    · intro he
      exact ⟨fun k hk hn => by simpa [hn] using h k hk, he.symm⟩
    · intro he
      exact he.2.symm
  | some k =>
    have hk := List.find?_some h
    have hm := List.mem_of_find?_eq_some h
    simp only [beq_iff_eq] at hk
    simp only [List.mem_map, not_exists, not_and]
    constructor
    · intro he
      cases he
    · intro he
      exact absurd hk (he.1 k hm)

theorem tokenizeAux_slashes (cs : List Char) (h : ∀ ch ∈ cs, ch = '/') :
    tokenizeAux [] cs = [] := by
  induction cs with
  | nil => rfl
  | cons c cs ih =>
    have hc : c = '/' := h c (List.mem_cons_self _ _)
    simp only [tokenizeAux, hc, if_true]
    exact ih (fun ch hch => h ch (List.mem_cons_of_mem _ hch))

theorem descend_append (start : SceneCache M) (pre post : List String) :
    descend start (pre ++ post) = (descend start pre).bind (fun n => descend n post) := by
  induction pre generalizing start with
  | nil => rfl
  | cons p ps ih =>
    simp only [descend, List.cons_append, List.foldlM]
    cases h : start.readableChild p with
    | error e => rfl
    | ok child => exact ih child

theorem descend_error_iff (start : SceneCache M) (segs : List String) (e : Exception) :
    descend start segs = .error e ↔
      ∃ pre s post node, segs = pre ++ s :: post ∧ descend start pre = .ok node ∧
        node.readableChild s = .error e := by
  induction segs generalizing start with
  | nil =>
    constructor
    · intro h; cases h
    · rintro ⟨pre, s, post, node, h, _⟩
      cases pre <;> cases h
  | cons t ts ih =>
    cases hc : start.readableChild t with
    | error e0 =>
      have hd : descend start (t :: ts) = .error e0 := by
        simp only [descend, List.foldlM, hc]; rfl
      rw [hd]
      constructor
      · intro h
        cases h
        exact ⟨[], t, ts, start, rfl, rfl, hc⟩
      · rintro ⟨pre, s, post, node, h, hpre, herr⟩
        cases pre with
        | nil =>
          simp only [List.nil_append, List.cons.injEq] at h
          cases hpre
          rw [← h.1, hc] at herr
          exact herr
        | cons p ps =>
          simp only [List.cons_append, List.cons.injEq] at h
          simp only [descend, List.foldlM, ← h.1, hc] at hpre
          cases hpre
    | ok child =>
      have hd : descend start (t :: ts) = descend child ts := by
        simp only [descend, List.foldlM, hc]; rfl
      rw [hd, ih child]
      constructor
      · rintro ⟨pre, s, post, node, h, hpre, herr⟩
        refine ⟨t :: pre, s, post, node, by rw [h]; rfl, ?_, herr⟩
        simp only [descend, List.foldlM, hc]
        exact hpre
      · rintro ⟨pre, s, post, node, h, hpre, herr⟩
        cases pre with
        | nil =>
          simp only [List.nil_append, List.cons.injEq] at h
          cases hpre
          rw [← h.1, hc] at herr
          cases herr
        | cons p ps =>
          simp only [List.cons_append, List.cons.injEq] at h
          refine ⟨ps, s, post, node, h.2, ?_, herr⟩
          simp only [descend, List.foldlM, ← h.1, hc] at hpre
          exact hpre

theorem descend_first_failure_unique (start : SceneCache M) (segs : List String)
    (pre1 pre2 post1 post2 : List String) (s1 s2 : String) (n1 n2 : SceneCache M)
    (e1 e2 : Exception)
    (h1 : segs = pre1 ++ s1 :: post1) (h2 : segs = pre2 ++ s2 :: post2)
    (hd1 : descend start pre1 = .ok n1) (hd2 : descend start pre2 = .ok n2)
    (he1 : n1.readableChild s1 = .error e1) (he2 : n2.readableChild s2 = .error e2) :
    pre1 = pre2 ∧ s1 = s2 ∧ post1 = post2 ∧ n1 = n2 := by
  induction pre1 generalizing start segs pre2 with
  | nil =>
    cases pre2 with
    | nil =>
      subst h1
      simp only [List.nil_append, List.cons.injEq] at h2
      cases hd1; cases hd2
      exact ⟨rfl, h2.1, h2.2, rfl⟩
    | cons p ps =>
      subst h1
      simp only [List.nil_append, List.cons_append, List.cons.injEq] at h2
      cases hd1
      simp only [descend, List.foldlM, ← h2.1, he1] at hd2
      cases hd2
  | cons q qs ih =>
    cases pre2 with
    | nil =>
      subst h2
      simp only [List.nil_append, List.cons_append, List.cons.injEq] at h1
      cases hd2
      simp only [descend, List.foldlM, ← h1.1, he2] at hd1
      cases hd1
    | cons p ps =>
      subst h1
      simp only [List.cons_append, List.cons.injEq] at h2
      obtain ⟨hqp, hrest⟩ := h2
      subst hqp
      cases hc : start.readableChild q with
      | error e0 =>
        simp only [descend, List.foldlM, hc] at hd1
        cases hd1
      | ok child =>
        simp only [descend, List.foldlM, hc] at hd1 hd2
        obtain ⟨a, b, c, d⟩ := ih child (qs ++ s1 :: post1) ps rfl hrest hd1 hd2
        exact ⟨by rw [a], b, c, d⟩

/-! ## The method `Cache::entry` -/

theorem entry_loop_eq (f : FileAndMutex M) (toks : List String) (node : SceneCache M) :
    toks.foldlM
        (fun (result : Entry M) tIt =>
          match result.m_entry.readableChild tIt with
          | .ok child => Except.ok { result with m_entry := child }
          | .error e => Except.error e)
        (⟨f, node⟩ : Entry M) =
      (descend node toks).map (fun n => (⟨f, n⟩ : Entry M)) := by
  induction toks generalizing node with
  | nil => rfl
  | cons t ts ih =>
    simp only [List.foldlM, descend]
    cases h : node.readableChild t with
    | error e => rfl
    | ok child =>
      simp only [bind, Except.bind]
      exact ih child

theorem entry_eq_descend (c : Cache M) (fs : FileSystem M) (fileName path : String)
    (f : FileAndMutex M) (fileCache : LRUCache (FileSystem M) String (FileAndMutex M))
    (hget : c.m_fileCache.get fs fileName = (.ok f, fileCache)) :
    c.entry fs fileName path =
      ((descend f.file (Tokenizer path)).map (fun n => (⟨f, n⟩ : Entry M)), ⟨fileCache⟩) := by
  unfold Cache.entry
  rw [hget]
  simp only [entry_loop_eq]


/-- C1: on an opened file, `Cache::entry` returns the node reached from the root
of the file by one exact child lookup per non-empty segment of the path, from
left to right (and fails when that descent fails); hence two paths with the
same non-empty segments give the same result. -/
theorem entry_resolves_segments (c : Cache M) (fs : FileSystem M) (fileName : String)
    (f : FileAndMutex M) (fileCache : LRUCache (FileSystem M) String (FileAndMutex M))
    (hopen : c.m_fileCache.get fs fileName = (.ok f, fileCache)) :
    (∀ path : String,
      c.entry fs fileName path =
        ((descend f.file (segments path)).map (fun n => (⟨f, n⟩ : Entry M)), ⟨fileCache⟩)) ∧
    (∀ path1 path2 : String, segments path1 = segments path2 →
      c.entry fs fileName path1 = c.entry fs fileName path2) := by
  refine ⟨fun path => ?_, fun path1 path2 h => ?_⟩
  · rw [entry_eq_descend c fs fileName path f fileCache hopen, Tokenizer_eq_segments]
  · rw [entry_eq_descend c fs fileName path1 f fileCache hopen,
      entry_eq_descend c fs fileName path2 f fileCache hopen,
      Tokenizer_eq_segments, Tokenizer_eq_segments, h]

theorem entry_resolves_segments_witness :
    (Cache.new : Cache Nat).m_fileCache.get sampleFiles "scene.mdc" =
      (.ok ⟨⟨"/", sampleRoot⟩⟩,
        ⟨fileCacheGetter, 200, [("scene.mdc", ⟨⟨"/", sampleRoot⟩⟩, 1)]⟩) ∧
    segments "/a/c" = segments "//a///c/" ∧
    (Cache.new : Cache Nat).entry sampleFiles "scene.mdc" "/a/c" =
      (Cache.new : Cache Nat).entry sampleFiles "scene.mdc" "//a///c/" :=
  ⟨rfl, by decide,
    (entry_resolves_segments Cache.new sampleFiles "scene.mdc" ⟨⟨"/", sampleRoot⟩⟩
      ⟨fileCacheGetter, 200, [("scene.mdc", ⟨⟨"/", sampleRoot⟩⟩, 1)]⟩ rfl).2
      "/a/c" "//a///c/" (by decide)⟩

/-- C2: on an opened file, a path that is empty or made of `'/'` characters only
has no token, so the loop of `Cache::entry` performs no child lookup, and the
call succeeds with the root node of the file. -/
theorem entry_of_slashes_is_root (c : Cache M) (fs : FileSystem M) (fileName : String)
    (f : FileAndMutex M) (fileCache : LRUCache (FileSystem M) String (FileAndMutex M))
    (hopen : c.m_fileCache.get fs fileName = (.ok f, fileCache))
    (path : String) (hpath : ∀ ch ∈ path.data, ch = '/') :
    Tokenizer path = [] ∧
      c.entry fs fileName path = (.ok ⟨f, f.file⟩, ⟨fileCache⟩) := by
  have htok : Tokenizer path = [] := tokenizeAux_slashes path.data hpath
  refine ⟨htok, ?_⟩
  rw [entry_eq_descend c fs fileName path f fileCache hopen, htok]
  rfl

theorem entry_of_slashes_is_root_witness :
    (Cache.new : Cache Nat).m_fileCache.get sampleFiles "scene.mdc" =
      (.ok ⟨⟨"/", sampleRoot⟩⟩,
        ⟨fileCacheGetter, 200, [("scene.mdc", ⟨⟨"/", sampleRoot⟩⟩, 1)]⟩) ∧
    (∀ ch ∈ "//".data, ch = '/') ∧
    (Tokenizer "//" = [] ∧
      (Cache.new : Cache Nat).entry sampleFiles "scene.mdc" "//" =
        (.ok ⟨⟨⟨"/", sampleRoot⟩⟩, ⟨"/", sampleRoot⟩⟩,
          ⟨⟨fileCacheGetter, 200, [("scene.mdc", ⟨⟨"/", sampleRoot⟩⟩, 1)]⟩⟩)) :=
  ⟨rfl, by decide,
    entry_of_slashes_is_root Cache.new sampleFiles "scene.mdc" ⟨⟨"/", sampleRoot⟩⟩
      ⟨fileCacheGetter, 200, [("scene.mdc", ⟨⟨"/", sampleRoot⟩⟩, 1)]⟩ rfl "//" (by decide)⟩

/-- C3: on an opened file, `Cache::entry` fails exactly when some non-empty
segment of the path names no child of the node reached by the segments before
it; the failure is then the one raised by the lookup of the first such segment
(that segment and its position are unique), and no entry is returned. -/
theorem entry_fails_iff_missing_segment (c : Cache M) (fs : FileSystem M)
    (fileName : String) (f : FileAndMutex M)
    (fileCache : LRUCache (FileSystem M) String (FileAndMutex M))
    (hopen : c.m_fileCache.get fs fileName = (.ok f, fileCache)) (path : String) :
    ((∃ e, (c.entry fs fileName path).1 = .error e) ↔
      ∃ pre s post node, segments path = pre ++ s :: post ∧
        descend f.file pre = .ok node ∧ s ∉ node.childNames) ∧
    (∀ e, (c.entry fs fileName path).1 = .error e →
      (∃ pre s post node, segments path = pre ++ s :: post ∧
        descend f.file pre = .ok node ∧ s ∉ node.childNames ∧
        node.readableChild s = .error e ∧
        ∀ pre2 s2 post2 node2, segments path = pre2 ++ s2 :: post2 →
          descend f.file pre2 = .ok node2 → s2 ∉ node2.childNames →
          pre2 = pre ∧ s2 = s) ∧
      ∀ r, (c.entry fs fileName path).1 ≠ .ok r) := by
  have hentry : (c.entry fs fileName path).1 =
      (descend f.file (segments path)).map (fun n => (⟨f, n⟩ : Entry M)) := by
    rw [entry_eq_descend c fs fileName path f fileCache hopen, Tokenizer_eq_segments]
  have hmap : ∀ e, (c.entry fs fileName path).1 = .error e ↔
      descend f.file (segments path) = .error e := by
    intro e
    rw [hentry]
    cases descend f.file (segments path) with
    | error e0 => simp [Except.map]
    | ok n => simp [Except.map]
  refine ⟨⟨?_, ?_⟩, ?_⟩
  · rintro ⟨e, he⟩
    obtain ⟨pre, s, post, node, hs, hd, herr⟩ :=
      (descend_error_iff f.file (segments path) e).1 ((hmap e).1 he)
    exact ⟨pre, s, post, node, hs, hd, ((readableChild_error_iff node s e).1 herr).1⟩
  · rintro ⟨pre, s, post, node, hs, hd, hmiss⟩
    refine ⟨.noSuchChild node.path s, (hmap _).2 ?_⟩
    exact (descend_error_iff f.file (segments path) _).2
      ⟨pre, s, post, node, hs, hd, (readableChild_error_iff node s _).2 ⟨hmiss, rfl⟩⟩
  · intro e he
    obtain ⟨pre, s, post, node, hs, hd, herr⟩ :=
      (descend_error_iff f.file (segments path) e).1 ((hmap e).1 he)
    refine ⟨⟨pre, s, post, node, hs, hd, ((readableChild_error_iff node s e).1 herr).1, herr,
      ?_⟩, ?_⟩
    · intro pre2 s2 post2 node2 hs2 hd2 hmiss2
      have herr2 := (readableChild_error_iff node2 s2 _).2 ⟨hmiss2, rfl⟩
      have hu := descend_first_failure_unique f.file (segments path) pre2 pre post2 post
        s2 s node2 node _ e hs2 hs hd2 hd herr2 herr
      exact ⟨hu.1, hu.2.1⟩
    · intro r hr
      rw [he] at hr
      cases hr

theorem entry_fails_iff_missing_segment_witness :
    (Cache.new : Cache Nat).m_fileCache.get sampleFiles "scene.mdc" =
      (.ok ⟨⟨"/", sampleRoot⟩⟩,
        ⟨fileCacheGetter, 200, [("scene.mdc", ⟨⟨"/", sampleRoot⟩⟩, 1)]⟩) ∧
    ((Cache.new : Cache Nat).entry sampleFiles "scene.mdc" "/a/x/c").1 =
      .error (.noSuchChild "/a" "x") ∧
    ∀ r, ((Cache.new : Cache Nat).entry sampleFiles "scene.mdc" "/a/x/c").1 ≠ .ok r :=
  ⟨rfl, rfl,
    ((entry_fails_iff_missing_segment Cache.new sampleFiles "scene.mdc" ⟨⟨"/", sampleRoot⟩⟩
      ⟨fileCacheGetter, 200, [("scene.mdc", ⟨⟨"/", sampleRoot⟩⟩, 1)]⟩ rfl "/a/x/c").2
      (.noSuchChild "/a" "x") rfl).2⟩

/-! ## Enumeration of the hierarchy -/

theorem descendantNames_unfold (cache : SceneCache M) (descendants : List String) :
    descendantNames cache descendants =
      cache.childNames.foldlM (visitChild cache descendantNames)
        (descendants ++ cache.childNames.map (SceneCache.childPath cache.path)) := by
  rw [descendantNames]
  congr 1
  funext acc it
  unfold visitChild
  split <;> simp_all

theorem objectNames_unfold (cache : SceneCache M) (objects : List String) :
    objectNames cache objects =
      cache.childNames.foldlM (visitChild cache objectNames)
        (if cache.hasObject then objects ++ [cache.name] else objects) := by
  rw [objectNames]
  congr 1
  funext acc it
  unfold visitChild
  split <;> simp_all

theorem readableChild_of_mem (c : SceneCache M) (n : String) (h : n ∈ c.childNames) :
    ∃ k, k ∈ c.node.children ∧ k.name = n ∧
      c.readableChild n = .ok ⟨SceneCache.childPath c.path n, k⟩ := by
  unfold SceneCache.readableChild
  cases hf : c.node.children.find? (fun k => k.name == n) with
  | none =>
    simp only [SceneCache.childNames, List.mem_map] at h
    obtain ⟨k, hk, hn⟩ := h
    have := List.find?_eq_none.1 hf k hk
    simp [hn] at this
  | some k =>
    have hk := List.find?_some hf
    simp only [beq_iff_eq] at hk
    exact ⟨k, List.mem_of_find?_eq_some hf, hk, rfl⟩

theorem children_eq (c : SceneCache M) : c.children = c.childNames.filterMap c.childOf := rfl

theorem childOf_of_ok {c child : SceneCache M} {n : String}
    (h : c.readableChild n = .ok child) : c.childOf n = some child := by
  simp only [SceneCache.childOf, h]

theorem visit_fold (cache : SceneCache M)
    (visit : SceneCache M → List String → Except Exception (List String))
    (Q : SceneCache M → List String → Prop)
    (names : List String) (hnames : ∀ n ∈ names, n ∈ cache.childNames)
    (ih : ∀ n child, cache.readableChild n = .ok child →
      ∃ l, Q child l ∧ ∀ acc, visit child acc = .ok (acc ++ l)) :
    ∃ subs : List (List String),
      List.Forall₂ (fun child sub => Q child sub ∧ ∀ acc, visit child acc = .ok (acc ++ sub))
        (names.filterMap cache.childOf) subs ∧
      ∀ acc, names.foldlM (visitChild cache visit) acc = .ok (acc ++ subs.flatten) := by
  induction names with
  | nil => exact ⟨[], List.Forall₂.nil, fun acc => by simp [List.foldlM, pure, Except.pure]⟩
  | cons n ns ihn =>
    obtain ⟨k, _, _, hk⟩ := readableChild_of_mem cache n (hnames n (List.mem_cons_self _ _))
    obtain ⟨l, hq, hl⟩ := ih n _ hk
    obtain ⟨subs, hsubs, hfold⟩ := ihn (fun m hm => hnames m (List.mem_cons_of_mem _ hm))
    refine ⟨l :: subs, ?_, fun acc => ?_⟩
    · rw [List.filterMap_cons_some (childOf_of_ok hk)]
      exact List.Forall₂.cons ⟨hq, hl⟩ hsubs
    · simp only [List.foldlM, visitChild, hk, hl, bind, Except.bind, hfold, List.flatten_cons,
        List.append_assoc]

theorem filterMap_childOf_path (c : SceneCache M) (names : List String)
    (hnames : ∀ n ∈ names, n ∈ c.childNames) :
    (names.filterMap c.childOf).map (fun k => k.path) =
      names.map (SceneCache.childPath c.path) := by
  induction names with
  | nil => rfl
  | cons n ns ihn =>
    obtain ⟨k, _, _, hk⟩ := readableChild_of_mem c n (hnames n (List.mem_cons_self _ _))
    rw [List.filterMap_cons_some (childOf_of_ok hk), List.map_cons, List.map_cons,
      ihn (fun m hm => hnames m (List.mem_cons_of_mem _ hm))]

theorem children_map_path (c : SceneCache M) :
    c.children.map (fun k => k.path) = c.childNames.map (SceneCache.childPath c.path) :=
  filterMap_childOf_path c c.childNames (fun _ h => h)

theorem descendantNames_acc (cache : SceneCache M) :
    ∃ l, ∀ acc, descendantNames cache acc = .ok (acc ++ l) := by
  induction cache, ([] : List String) using descendantNames.induct with
  | case1 cache _ ih =>
    obtain ⟨subs, _, hfold⟩ := visit_fold cache descendantNames (fun _ _ => True)
      cache.childNames (fun _ h => h)
      (fun n child h => (ih [] n child h).imp (fun _ hl => ⟨trivial, hl⟩))
    refine ⟨cache.childNames.map (SceneCache.childPath cache.path) ++ subs.flatten, fun acc => ?_⟩
    rw [descendantNames_unfold, hfold, List.append_assoc]

theorem objectNames_acc (cache : SceneCache M) :
    ∃ l, ∀ acc, objectNames cache acc = .ok (acc ++ l) := by
  induction cache, ([] : List String) using objectNames.induct with
  | case1 cache _ ih =>
    obtain ⟨subs, _, hfold⟩ := visit_fold cache objectNames (fun _ _ => True)
      cache.childNames (fun _ h => h)
      (fun n child h => (ih [] n child h).imp (fun _ hl => ⟨trivial, hl⟩))
    refine ⟨(if cache.hasObject then [cache.name] else []) ++ subs.flatten, fun acc => ?_⟩
    rw [objectNames_unfold, hfold]
    split <;> simp

theorem find_of_nodup (cs : List (HierarchyNode M)) (hnd : (cs.map HierarchyNode.name).Nodup)
    (k : HierarchyNode M) (hk : k ∈ cs) :
    cs.find? (fun x => x.name == k.name) = some k := by
  induction cs with
  | nil => cases hk
  | cons x xs ih =>
    simp only [List.map_cons, List.nodup_cons, List.mem_map, not_exists, not_and] at hnd
    by_cases hx : x.name = k.name
    · rcases List.mem_cons.1 hk with h | h
      · subst h
        simp
      · exact absurd hx.symm (fun h2 => hnd.1 k h h2)
    · rcases List.mem_cons.1 hk with h | h
      · exact absurd (by rw [h]) hx
      · rw [List.find?_cons_of_neg _ (by simpa using hx)]
        exact ih hnd.2 h

theorem readableChild_of_nodup (c : SceneCache M) (hnd : c.childNames.Nodup)
    (k : HierarchyNode M) (hk : k ∈ c.node.children) :
    c.readableChild k.name = .ok (c.handleOf k) := by
  unfold SceneCache.readableChild
  rw [find_of_nodup c.node.children hnd k hk]
  rfl

theorem children_of_nodup (c : SceneCache M) (hnd : c.childNames.Nodup) :
    c.children = c.node.children.map c.handleOf := by
  have key : ∀ ks : List (HierarchyNode M), (∀ k ∈ ks, k ∈ c.node.children) →
      (ks.map HierarchyNode.name).filterMap c.childOf = ks.map c.handleOf := by
    intro ks
    induction ks with
    | nil => intro _; rfl
    | cons k ks ih =>
      intro h
      have hk := readableChild_of_nodup c hnd k (h k (List.mem_cons_self _ _))
      rw [List.map_cons, List.filterMap_cons_some (childOf_of_ok hk), List.map_cons,
        ih (fun m hm => h m (List.mem_cons_of_mem _ hm))]
  exact key c.node.children (fun _ h => h)

theorem uniqueNames_mk {nm : String} {t : M} {ho : Bool} {cs : List (HierarchyNode M)}
    (h : (HierarchyNode.mk nm t ho cs).uniqueNames = true) :
    (cs.map HierarchyNode.name).Nodup ∧ ∀ k ∈ cs, k.uniqueNames = true := by
  simp only [HierarchyNode.uniqueNames, Bool.and_eq_true, decide_eq_true_eq] at h
  refine ⟨h.1, ?_⟩
  have key : ∀ ks : List (HierarchyNode M), uniqueNamesList ks = true →
      ∀ k ∈ ks, k.uniqueNames = true := by
    intro ks
    induction ks with
    | nil => intro _ k hk; cases hk
    | cons x xs ih =>
      intro hx k hk
      simp only [uniqueNamesList, Bool.and_eq_true] at hx
      rcases List.mem_cons.1 hk with h1 | h1
      · rw [h1]; exact hx.1
      · exact ih hx.2 k h1
  exact key cs h.2

theorem visit_fold_nodes (cache : SceneCache M)
    (visit : SceneCache M → List String → Except Exception (List String))
    (g : HierarchyNode M → List String) (ks : List (HierarchyNode M))
    (h : ∀ k ∈ ks, cache.readableChild k.name = .ok (cache.handleOf k) ∧
      ∀ acc, visit (cache.handleOf k) acc = .ok (acc ++ g k)) :
    ∀ acc, (ks.map HierarchyNode.name).foldlM (visitChild cache visit) acc =
      .ok (acc ++ (ks.map g).flatten) := by
  induction ks with
  | nil => intro acc; simp [List.foldlM, pure, Except.pure]
  | cons k ks ih =>
    intro acc
    obtain ⟨hk, hv⟩ := h k (List.mem_cons_self _ _)
    simp only [List.map_cons, List.foldlM, visitChild, hk, hv, bind, Except.bind,
      ih (fun m hm => h m (List.mem_cons_of_mem _ hm)), List.flatten_cons, List.append_assoc]

theorem descendantPathsList_eq (path : String) (ks : List (HierarchyNode M)) :
    descendantPathsList path ks =
      (ks.map (fun k => descendantPaths (SceneCache.childPath path k.name) k)).flatten := by
  induction ks with
  | nil => rfl
  | cons k ks ih => rw [descendantPathsList, ih, List.map_cons, List.flatten_cons]

theorem descendantNames_eq_descendantPaths (cache : SceneCache M) (acc : List String)
    (hu : cache.node.uniqueNames = true) :
    descendantNames cache acc = .ok (acc ++ descendantPaths cache.path cache.node) := by
  induction cache, acc using descendantNames.induct with
  | case1 cache acc ih =>
    obtain ⟨path, node⟩ := cache
    cases node with
    | mk nm t ho cs =>
      obtain ⟨hnd, hks⟩ := uniqueNames_mk hu
      have hfold := visit_fold_nodes ⟨path, .mk nm t ho cs⟩ descendantNames
        (fun k => descendantPaths (SceneCache.childPath path k.name) k) cs
        (fun k hk => by
          have hr := readableChild_of_nodup ⟨path, .mk nm t ho cs⟩ hnd k hk
          exact ⟨hr, fun a => ih a k.name _ hr (hks k hk)⟩)
      rw [descendantNames_unfold]
      simp only [SceneCache.childNames, HierarchyNode.children] at hfold ⊢
      rw [hfold, descendantPaths, descendantPathsList_eq, List.map_map, List.append_assoc]
      rfl

/-- C4: what `descendantNames` appends for a node is first the absolute paths of
the children of the node in child order, then what `descendantNames` produces
for each child, one child after the other in child order. The children are the
handles that `readableChild` returns for the names of `childNames`, which are
the child nodes themselves when sibling names are distinct. For a root with the
children `a` and `b`, where `a` has the single child `c`, the result is
`["/a", "/b", "/a/c"]`. -/
theorem descendantNames_children_then_subtrees :
    (∀ (cache : SceneCache M) (descendants : List String),
      ∃ subtrees : List (List String),
        List.Forall₂ (fun child sub => descendantNames child [] = .ok sub)
          cache.children subtrees ∧
        descendantNames cache descendants =
          .ok (descendants ++ cache.children.map (fun k => k.path) ++ subtrees.flatten)) ∧
    (∀ cache : SceneCache M,
      cache.children.map (fun k => k.path) =
          cache.childNames.map (SceneCache.childPath cache.path) ∧
        (cache.childNames.Nodup →
          cache.children = cache.node.children.map cache.handleOf)) ∧
    (∀ (rn : String) (t0 ta tb tc : M) (h0 ha hb hc : Bool),
      descendantNames
        ⟨"/", .mk rn t0 h0 [.mk "a" ta ha [.mk "c" tc hc []], .mk "b" tb hb []]⟩ [] =
        .ok ["/a", "/b", "/a/c"]) := by
  refine ⟨fun cache descendants => ?_,
    fun cache => ⟨children_map_path cache, children_of_nodup cache⟩,
    fun rn t0 ta tb tc h0 ha hb hc => ?_⟩
  · obtain ⟨subs, hsubs, hfold⟩ := visit_fold cache descendantNames (fun _ _ => True)
      cache.childNames (fun _ h => h)
      (fun n child _ => (descendantNames_acc child).imp (fun _ hl => ⟨trivial, hl⟩))
    refine ⟨subs, ?_, ?_⟩
    · exact hsubs.imp (fun child sub h => by simpa using h.2 [])
    · rw [descendantNames_unfold, hfold, children_map_path]
  · have hu : (HierarchyNode.mk rn t0 h0
        [.mk "a" ta ha [.mk "c" tc hc []], .mk "b" tb hb []]).uniqueNames = true := by
      simp [HierarchyNode.uniqueNames, uniqueNamesList, HierarchyNode.name]
    rw [descendantNames_eq_descendantPaths ⟨"/", _⟩ [] hu]
    rfl

theorem descendantNames_children_then_subtrees_witness :
    (⟨"/", sampleRoot⟩ : SceneCache Nat).childNames.Nodup ∧
    (⟨"/", sampleRoot⟩ : SceneCache Nat).children =
      sampleRoot.children.map (⟨"/", sampleRoot⟩ : SceneCache Nat).handleOf ∧
    descendantNames (⟨"/", sampleRoot⟩ : SceneCache Nat) [] = .ok ["/a", "/b", "/a/c"] :=
  ⟨by decide,
    (descendantNames_children_then_subtrees.2.1 ⟨"/", sampleRoot⟩).2 (by decide),
    descendantNames_children_then_subtrees.2.2 "/" 0 1 2 3 false false false true⟩

theorem payloadNames_mk (nm : String) (t : M) (ho : Bool) (cs : List (HierarchyNode M)) :
    (HierarchyNode.mk nm t ho cs).payloadNames =
      (if ho then [nm] else []) ++ (cs.map HierarchyNode.payloadNames).flatten := by
  have key : ∀ ks : List (HierarchyNode M),
      ((preorderList ks).filter (fun k => k.hasObject)).map HierarchyNode.name =
        (ks.map HierarchyNode.payloadNames).flatten := by
    intro ks
    induction ks with
    | nil => rfl
    | cons k ks ih =>
      rw [preorderList, List.filter_append, List.map_append, ih, List.map_cons,
        List.flatten_cons]
      rfl
  unfold HierarchyNode.payloadNames
  rw [HierarchyNode.preorder]
  cases ho
  · rw [List.filter_cons_of_neg (by simp [HierarchyNode.hasObject]), key]
    rfl
  · rw [List.filter_cons_of_pos (by simp [HierarchyNode.hasObject]), List.map_cons, key]
    rfl

theorem objectNames_eq_payloadNames (cache : SceneCache M) (acc : List String)
    (hu : cache.node.uniqueNames = true) :
    objectNames cache acc = .ok (acc ++ cache.node.payloadNames) := by
  induction cache, acc using objectNames.induct with
  | case1 cache acc ih =>
    obtain ⟨path, node⟩ := cache
    cases node with
    | mk nm t ho cs =>
      obtain ⟨hnd, hks⟩ := uniqueNames_mk hu
      have hfold := visit_fold_nodes ⟨path, .mk nm t ho cs⟩ objectNames
        HierarchyNode.payloadNames cs
        (fun k hk => by
          have hr := readableChild_of_nodup ⟨path, .mk nm t ho cs⟩ hnd k hk
          exact ⟨hr, fun a => ih a k.name _ hr (hks k hk)⟩)
      rw [objectNames_unfold]
      simp only [SceneCache.childNames, HierarchyNode.children] at hfold ⊢
      rw [hfold, payloadNames_mk]
      cases ho <;> simp [SceneCache.hasObject, SceneCache.name, HierarchyNode.hasObject,
        HierarchyNode.name]

/-- C7: when sibling names are distinct, `objectNames` started on the empty list
gives the local names of exactly the nodes of the subtree that carry a payload,
one entry per such node, in depth-first pre-order (the node first, then the
subtree of each child in child order). When only `/a/c` carries a payload the
result from the root is `["c"]`. -/
theorem objectNames_is_preorder_of_payloads :
    (∀ cache : SceneCache M, cache.node.uniqueNames = true →
      objectNames cache [] =
          .ok ((cache.node.preorder.filter (fun k => k.hasObject)).map HierarchyNode.name) ∧
        ∀ objects, objectNames cache objects =
          .ok (objects ++
            (cache.node.preorder.filter (fun k => k.hasObject)).map HierarchyNode.name)) ∧
    (∀ (rn : String) (t0 ta tb tc : M),
      objectNames
        ⟨"/", .mk rn t0 false [.mk "a" ta false [.mk "c" tc true []], .mk "b" tb false []]⟩
        [] = .ok ["c"]) := by
  refine ⟨fun cache hu => ⟨?_, fun objects => ?_⟩, fun rn t0 ta tb tc => ?_⟩
  · simpa using objectNames_eq_payloadNames cache [] hu
  · exact objectNames_eq_payloadNames cache objects hu
  · have hu : (HierarchyNode.mk rn t0 false
        [.mk "a" ta false [.mk "c" tc true []], .mk "b" tb false []]).uniqueNames = true := by
      simp [HierarchyNode.uniqueNames, uniqueNamesList, HierarchyNode.name]
    rw [objectNames_eq_payloadNames ⟨"/", _⟩ [] hu]
    rfl

theorem objectNames_is_preorder_of_payloads_witness :
    sampleRoot.uniqueNames = true ∧
    objectNames (⟨"/", sampleRoot⟩ : SceneCache Nat) [] = .ok ["c"] :=
  ⟨by decide,
    ((objectNames_is_preorder_of_payloads.1 (⟨"/", sampleRoot⟩ : SceneCache Nat)
      (by decide)).1).trans rfl⟩

/-! ## Child paths and their segments -/

theorem tokenizeAux_append_slash (xs ys cur : List Char) :
    tokenizeAux cur (xs ++ '/' :: ys) = tokenizeAux cur xs ++ tokenizeAux [] ys := by
  induction xs generalizing cur with
  | nil =>
    by_cases h : cur = [] <;> simp [tokenizeAux, h]
  | cons c cs ih =>
    by_cases hc : c = '/'
    · by_cases h : cur = [] <;> simp [tokenizeAux, hc, h, ih]
    · simp [tokenizeAux, hc, ih]

theorem tokenizeAux_no_slash (ys cur : List Char) (h : '/' ∉ ys) :
    tokenizeAux cur ys = if cur ++ ys = [] then [] else [String.mk (cur ++ ys)] := by
  induction ys generalizing cur with
  | nil => simp [tokenizeAux]
  | cons c cs ih =>
    simp only [List.mem_cons, not_or] at h
    have hc : c ≠ '/' := fun e => h.1 e.symm
    simp [tokenizeAux, hc, ih _ h.2]

theorem validName_iff (n : String) : validName n = true ↔ n ≠ "" ∧ '/' ∉ n.data := by
  simp [validName]

theorem childPath_data (p n : String) :
    (SceneCache.childPath p n).data = (if p = "/" then [] else p.data) ++ '/' :: n.data := by
  unfold SceneCache.childPath
  split <;> simp [String.data_append]

theorem Tokenizer_childPath (p n : String) (hn : validName n = true) :
    Tokenizer (SceneCache.childPath p n) = Tokenizer p ++ [n] := by
  obtain ⟨hne, hns⟩ := (validName_iff n).1 hn
  have hd : n.data ≠ [] := fun h => hne (String.ext h)
  unfold Tokenizer
  rw [childPath_data, tokenizeAux_append_slash, tokenizeAux_no_slash _ _ hns]
  simp only [List.nil_append, hd, if_false]
  by_cases hp : p = "/"
  · subst hp
    simp [tokenizeAux]
  · simp [hp]

theorem segments_childPath (p n : String) (hn : validName n = true) :
    segments (SceneCache.childPath p n) = segments p ++ [n] := by
  rw [← Tokenizer_eq_segments, ← Tokenizer_eq_segments, Tokenizer_childPath p n hn]

theorem forall₂_exists_of_mem_right {α β : Type} {R : α → β → Prop} {l1 : List α}
    {l2 : List β} (h : List.Forall₂ R l1 l2) {b : β} (hb : b ∈ l2) :
    ∃ a, a ∈ l1 ∧ R a b := by
  induction h with
  | nil => cases hb
  | cons hr _ ih =>
    rcases List.mem_cons.1 hb with h1 | h1
    · subst h1
      exact ⟨_, List.mem_cons_self _ _, hr⟩
    · obtain ⟨a, ha, hab⟩ := ih h1
      exact ⟨a, List.mem_cons_of_mem _ ha, hab⟩

theorem validNames_mk {nm : String} {t : M} {ho : Bool} {cs : List (HierarchyNode M)}
    (h : (HierarchyNode.mk nm t ho cs).validNames = true) :
    ∀ k ∈ cs, validName k.name = true ∧ k.validNames = true := by
  have key : ∀ ks : List (HierarchyNode M), validNamesList ks = true →
      ∀ k ∈ ks, validName k.name = true ∧ k.validNames = true := by
    intro ks
    induction ks with
    | nil => intro _ k hk; cases hk
    | cons x xs ih =>
      intro hx k hk
      simp only [validNamesList, Bool.and_eq_true] at hx
      rcases List.mem_cons.1 hk with h1 | h1
      · rw [h1]; exact hx.1
      · exact ih hx.2 k h1
  exact key cs h

theorem validNames_children {node : HierarchyNode M} (h : node.validNames = true) :
    ∀ k ∈ node.children, validName k.name = true ∧ k.validNames = true := by
  cases node with
  | mk nm t ho cs => exact validNames_mk h

theorem readableChild_ok {c child : SceneCache M} {n : String}
    (h : c.readableChild n = .ok child) :
    child.path = SceneCache.childPath c.path n ∧ child.node ∈ c.node.children ∧
      child.node.name = n := by
  unfold SceneCache.readableChild at h
  split at h
  · next k hk =>
    cases h
    have hn := List.find?_some hk
    simp only [beq_iff_eq] at hn
    exact ⟨rfl, List.mem_of_find?_eq_some hk, hn⟩
  · cases h

theorem descendantNames_levels (cache : SceneCache M) (hv : cache.node.validNames = true) :
    ∃ deeper : List String,
      (∀ p ∈ cache.childNames.map (SceneCache.childPath cache.path),
        (segments p).length = (segments cache.path).length + 1) ∧
      (∀ q ∈ deeper, (segments cache.path).length + 2 ≤ (segments q).length) ∧
      ∀ acc, descendantNames cache acc =
        .ok (acc ++ (cache.childNames.map (SceneCache.childPath cache.path) ++ deeper)) := by
  revert hv
  induction cache, ([] : List String) using descendantNames.induct with
  | case1 cache _ ih =>
    intro hv
    have hval := validNames_children hv
    have hfirst : ∀ p ∈ cache.childNames.map (SceneCache.childPath cache.path),
        (segments p).length = (segments cache.path).length + 1 := by
      intro p hp
      obtain ⟨n, hn, rfl⟩ := List.mem_map.1 hp
      obtain ⟨k, hk, rfl⟩ := List.mem_map.1 hn
      rw [segments_childPath _ _ (hval k hk).1, List.length_append]
      rfl
    obtain ⟨subs, hsubs, hfold⟩ := visit_fold cache descendantNames
      (fun child l => ∀ q ∈ l, (segments cache.path).length + 2 ≤ (segments q).length)
      cache.childNames (fun _ h => h)
      (fun n child h => by
        obtain ⟨hpath, hmem, hname⟩ := readableChild_ok h
        have hvk := hval child.node hmem
        obtain ⟨deeper, h1, h2, h3⟩ := ih [] n child h hvk.2
        have hseg : (segments child.path).length = (segments cache.path).length + 1 := by
          rw [hpath, segments_childPath _ _ (hname ▸ hvk.1), List.length_append]
          rfl
        refine ⟨child.childNames.map (SceneCache.childPath child.path) ++ deeper, ?_, h3⟩
        intro q hq
        rcases List.mem_append.1 hq with hq1 | hq1
        · have := h1 q hq1
          omega
        · have := h2 q hq1
          omega)
    refine ⟨subs.flatten, hfirst, ?_, fun acc => ?_⟩
    · intro q hq
      obtain ⟨sub, hsub, hqs⟩ := List.mem_flatten.1 hq
      obtain ⟨child, _, hc⟩ := forall₂_exists_of_mem_right hsubs hsub
      exact hc.1 q hqs
    · rw [descendantNames_unfold, hfold, List.append_assoc]

/-- C5, as amended: when the names below the queried node are non-empty and free
of `'/'`, `descendantNames` lists the paths of the immediate children first (each
has exactly one segment more than the path of the queried node), and every
entry after them has at least two segments more. -/
theorem descendantNames_children_before_deeper (cache : SceneCache M)
    (hv : cache.node.validNames = true) :
    ∃ deeper : List String,
      descendantNames cache [] = .ok (cache.children.map (fun k => k.path) ++ deeper) ∧
      (∀ p ∈ cache.children.map (fun k => k.path),
        (segments p).length = (segments cache.path).length + 1) ∧
      (∀ q ∈ deeper, (segments cache.path).length + 2 ≤ (segments q).length) := by
  obtain ⟨deeper, h1, h2, h3⟩ := descendantNames_levels cache hv
  refine ⟨deeper, ?_, ?_, h2⟩
  · rw [h3 [], children_map_path]
    rfl
  · rw [children_map_path]
    exact h1

theorem descendantNames_children_before_deeper_witness :
    deepRoot.validNames = true ∧
    ∃ deeper : List String,
      descendantNames (⟨"/", deepRoot⟩ : SceneCache Nat) [] =
        .ok ((⟨"/", deepRoot⟩ : SceneCache Nat).children.map (fun k => k.path) ++ deeper) ∧
      (∀ p ∈ (⟨"/", deepRoot⟩ : SceneCache Nat).children.map (fun k => k.path),
        (segments p).length = (segments "/").length + 1) ∧
      (∀ q ∈ deeper, (segments "/").length + 2 ≤ (segments q).length) :=
  ⟨by decide, descendantNames_children_before_deeper ⟨"/", deepRoot⟩ (by decide)⟩

/-- C5, as stated, fails: in the archive `deepRoot` the path `/a/c/d` of three
segments is listed before the path `/b/e` of two segments. -/
theorem descendantNames_not_shallower_first :
    descendantNames (⟨"/", deepRoot⟩ : SceneCache Nat) [] =
      .ok ["/a", "/b", "/a/c", "/a/c/d", "/b/e"] ∧
    ¬ ShallowerFirst ["/a", "/b", "/a/c", "/a/c/d", "/b/e"] := by
  refine ⟨?_, ?_⟩
  · rw [descendantNames_eq_descendantPaths ⟨"/", deepRoot⟩ [] (by decide)]
    rfl
  · unfold ShallowerFirst
    decide

/-! ## Proper descendants and absolute paths -/

theorem HierarchyNode.induction {P : HierarchyNode M → Prop}
    (h : ∀ nm t ho cs, (∀ k ∈ cs, P k) → P (.mk nm t ho cs)) (node : HierarchyNode M) :
    P node :=
  @HierarchyNode.rec M P (fun cs => ∀ k ∈ cs, P k)
    (fun nm t ho cs ih => h nm t ho cs ih)
    (fun k hk => by cases hk)
    (fun x xs hx hxs k hk => by
      rcases List.mem_cons.1 hk with h1 | h1
      · rw [h1]; exact hx
      · exact hxs k h1)
    node

theorem properDescendantsList_eq (ks : List (HierarchyNode M)) :
    properDescendantsList ks =
      (ks.map (fun k =>
        ([k.name], k) :: k.properDescendants.map (fun d => (k.name :: d.1, d.2)))).flatten := by
  induction ks with
  | nil => rfl
  | cons k ks ih => rw [properDescendantsList, ih, List.map_cons, List.flatten_cons]

theorem perm_heads_blocks {α β : Type} (f : α → β) (g g2 : α → List β) (xs : List α)
    (h : ∀ x ∈ xs, (g x).Perm (g2 x)) :
    (xs.map f ++ (xs.map g).flatten).Perm ((xs.map (fun x => f x :: g2 x)).flatten) := by
  induction xs with
  | nil => exact List.Perm.refl _
  | cons x xs ih =>
    have h1 := ih (fun y hy => h y (List.mem_cons_of_mem _ hy))
    have h2 := h x (List.mem_cons_self _ _)
    simp only [List.map_cons, List.flatten_cons, List.cons_append]
    refine List.Perm.cons _ ?_
    refine (List.perm_append_comm_assoc _ _ _).trans ?_
    exact List.Perm.append h2 h1

theorem descendantPaths_perm (node : HierarchyNode M) :
    ∀ path : String, (descendantPaths path node).Perm
      (node.properDescendants.map (fun d => d.1.foldl SceneCache.childPath path)) := by
  induction node using HierarchyNode.induction with
  | h nm t ho cs ih =>
    intro path
    rw [descendantPaths, descendantPathsList_eq, HierarchyNode.properDescendants,
      properDescendantsList_eq, List.map_flatten, List.map_map]
    refine (perm_heads_blocks (fun k => SceneCache.childPath path k.name) _
      (fun k => k.properDescendants.map
        (fun d => d.1.foldl SceneCache.childPath (SceneCache.childPath path k.name))) cs
      (fun k hk => ih k hk _)).trans ?_
    refine List.Perm.of_eq ?_
    congr 1
    refine List.map_congr_left (fun k _ => ?_)
    simp [List.map_map, Function.comp_def]

theorem intercalate_go_append (acc s n : String) (as : List String) :
    String.intercalate.go acc s (as ++ [n]) = String.intercalate.go acc s as ++ s ++ n := by
  induction as generalizing acc with
  | nil => rfl
  | cons a as ih =>
    simp only [List.cons_append, String.intercalate.go]
    exact ih _

theorem intercalate_go_prefix (acc s : String) (as : List String) :
    ∃ r : String, String.intercalate.go acc s as = acc ++ r := by
  induction as generalizing acc with
  | nil => exact ⟨"", by simp [String.intercalate.go]⟩
  | cons a as ih =>
    obtain ⟨r, hr⟩ := ih (acc ++ s ++ a)
    refine ⟨s ++ a ++ r, ?_⟩
    rw [String.intercalate.go, hr]
    simp only [String.append_assoc]

theorem absolutePath_nil : absolutePath [] = "/" := rfl

theorem absolutePath_ne_root (a : String) (as : List String) (ha : a ≠ "") :
    absolutePath (a :: as) ≠ "/" := by
  obtain ⟨r, hr⟩ := intercalate_go_prefix a "/" as
  intro h
  have hd := congrArg String.data h
  simp only [absolutePath, String.intercalate, hr, String.data_append] at hd
  have hlen := congrArg List.length hd
  have ha2 : a.data ≠ [] := fun h2 => ha (String.ext h2)
  have hpos : 0 < a.data.length := List.length_pos.2 ha2
  simp only [List.length_append] at hlen
  have h1 : "/".data.length = 1 := rfl
  omega

theorem childPath_absolutePath (ns : List String) (n : String)
    (hns : ∀ m ∈ ns, m ≠ "") :
    SceneCache.childPath (absolutePath ns) n = absolutePath (ns ++ [n]) := by
  cases ns with
  | nil => simp [SceneCache.childPath, absolutePath, String.intercalate, String.intercalate.go]
  | cons a as =>
    have hne := absolutePath_ne_root a as (hns a (List.mem_cons_self _ _))
    simp only [SceneCache.childPath, hne, if_false]
    simp only [absolutePath, String.intercalate, List.cons_append, intercalate_go_append,
      String.append_assoc]

theorem foldl_childPath_absolutePath (ch ns : List String)
    (hns : ∀ m ∈ ns ++ ch, m ≠ "") :
    ch.foldl SceneCache.childPath (absolutePath ns) = absolutePath (ns ++ ch) := by
  induction ch generalizing ns with
  | nil => simp
  | cons c cs ih =>
    rw [List.foldl_cons, childPath_absolutePath ns c
      (fun m hm => hns m (List.mem_append_left _ hm)), ih (ns ++ [c]) (by simpa using hns)]
    simp

theorem Tokenizer_absolutePath (ns : List String) (hns : ∀ m ∈ ns, validName m = true) :
    Tokenizer (absolutePath ns) = ns := by
  induction ns using List.reverseRecOn with
  | nil => decide
  | append_singleton ns n ih =>
    have hne : ∀ m ∈ ns, m ≠ "" := fun m hm =>
      ((validName_iff m).1 (hns m (List.mem_append_left _ hm))).1
    rw [← childPath_absolutePath ns n hne,
      Tokenizer_childPath _ _ (hns n (by simp)),
      ih (fun m hm => hns m (List.mem_append_left _ hm))]

theorem mem_properDescendants_mk {nm : String} {t : M} {ho : Bool}
    {cs : List (HierarchyNode M)} {d : List String × HierarchyNode M}
    (hd : d ∈ (HierarchyNode.mk nm t ho cs).properDescendants) :
    ∃ k ∈ cs, d = ([k.name], k) ∨
      ∃ d2 ∈ k.properDescendants, d = (k.name :: d2.1, d2.2) := by
  rw [HierarchyNode.properDescendants, properDescendantsList_eq] at hd
  obtain ⟨blk, hblk, hdb⟩ := List.mem_flatten.1 hd
  obtain ⟨k, hk, rfl⟩ := List.mem_map.1 hblk
  refine ⟨k, hk, ?_⟩
  rcases List.mem_cons.1 hdb with h1 | h1
  · exact Or.inl h1
  · obtain ⟨d2, hd2, rfl⟩ := List.mem_map.1 h1
    exact Or.inr ⟨d2, hd2, rfl⟩

theorem chains_ne_nil (node : HierarchyNode M) :
    ∀ d ∈ node.properDescendants, d.1 ≠ [] := by
  cases node with
  | mk nm t ho cs =>
    intro d hd
    obtain ⟨k, _, h1 | ⟨d2, _, h1⟩⟩ := mem_properDescendants_mk hd <;> simp [h1]

theorem chains_valid (node : HierarchyNode M) :
    node.validNames = true → ∀ d ∈ node.properDescendants, ∀ n ∈ d.1, validName n = true := by
  induction node using HierarchyNode.induction with
  | h nm t ho cs ih =>
    intro hv d hd n hn
    have hval := validNames_mk hv
    obtain ⟨k, hk, h1 | ⟨d2, hd2, h1⟩⟩ := mem_properDescendants_mk hd
    · rw [h1] at hn
      simp only [List.mem_singleton] at hn
      rw [hn]
      exact (hval k hk).1
    · rw [h1] at hn
      rcases List.mem_cons.1 hn with h2 | h2
      · rw [h2]
        exact (hval k hk).1
      · exact ih k hk (hval k hk).2 d2 hd2 n h2

theorem chains_nodup (node : HierarchyNode M) :
    node.uniqueNames = true → (node.properDescendants.map Prod.fst).Nodup := by
  induction node using HierarchyNode.induction with
  | h nm t ho cs ih =>
    intro hu
    obtain ⟨hnd, hks⟩ := uniqueNames_mk hu
    rw [HierarchyNode.properDescendants, properDescendantsList_eq, List.map_flatten,
      List.map_map, List.nodup_flatten]
    constructor
    · intro blk hblk
      obtain ⟨k, hk, rfl⟩ := List.mem_map.1 hblk
      simp only [Function.comp_apply, List.map_cons, List.map_map, List.nodup_cons]
      constructor
      · intro hmem
        obtain ⟨d2, hd2, h2⟩ := List.mem_map.1 hmem
        simp only [Function.comp_apply, List.cons.injEq, true_and] at h2
        exact chains_ne_nil k d2 hd2 h2
      · have hk2 := ih k hk (hks k hk)
        have hinj : Function.Injective (fun ch : List String => k.name :: ch) :=
          fun a b hab => (List.cons.inj hab).2
        have := hk2.map hinj
        simpa [List.map_map, Function.comp_def] using this
    · rw [List.pairwise_map]
      have hpw : cs.Pairwise (fun a b => a.name ≠ b.name) := by
        have := hnd
        unfold List.Nodup at this
        rwa [List.pairwise_map] at this
      refine hpw.imp ?_
      intro a b hab
      have hhead : ∀ (k : HierarchyNode M) (ch : List String),
          ch ∈ ((fun k : HierarchyNode M => List.map Prod.fst
            (([k.name], k) :: k.properDescendants.map (fun d => (k.name :: d.1, d.2)))) k) →
          ch.head? = some k.name := by
        intro k ch hch
        simp only [List.map_cons, List.map_map, List.mem_cons, List.mem_map,
          Function.comp_apply] at hch
        rcases hch with h1 | ⟨d2, _, h1⟩
        · rw [h1]; rfl
        · rw [← h1]; rfl
      intro ch hca hcb
      have h1 := hhead a ch hca
      have h2 := hhead b ch hcb
      rw [h1] at h2
      exact hab (Option.some.inj h2)

/-- C6: for a queried node reached from the root of the file by the names
`names0`, in an archive whose sibling names are distinct and whose names are
non-empty and free of `'/'`, `descendantNames` started on the empty list returns
a list that holds, for each proper descendant of the node, one entry and nothing
else: the entry is `'/'` followed by the `'/'`-joined names from the root of the
file to that descendant. So its length is the number of proper descendants, its
entries are pairwise distinct, and the path of the queried node is not among
them. -/
theorem descendantNames_lists_proper_descendants (cache : SceneCache M)
    (names0 : List String) (hpath : cache.path = absolutePath names0)
    (h0 : ∀ n ∈ names0, validName n = true)
    (hu : cache.node.uniqueNames = true) (hv : cache.node.validNames = true) :
    ∃ l : List String, descendantNames cache [] = .ok l ∧
      l.Perm (cache.node.properDescendants.map (fun d => absolutePath (names0 ++ d.1))) ∧
      l.length = cache.node.properDescendants.length ∧
      l.Nodup ∧ cache.path ∉ l := by
  have hvalid : ∀ d ∈ cache.node.properDescendants, ∀ n ∈ names0 ++ d.1,
      validName n = true := by
    intro d hd n hn
    rcases List.mem_append.1 hn with h1 | h1
    · exact h0 n h1
    · exact chains_valid cache.node hv d hd n h1
  have hperm : (descendantPaths cache.path cache.node).Perm
      (cache.node.properDescendants.map (fun d => absolutePath (names0 ++ d.1))) := by
    refine (descendantPaths_perm cache.node cache.path).trans (List.Perm.of_eq ?_)
    refine List.map_congr_left (fun d hd => ?_)
    rw [hpath]
    exact foldl_childPath_absolutePath d.1 names0
      (fun m hm => ((validName_iff m).1 (hvalid d hd m hm)).1)
  have hinj : ∀ d1 ∈ cache.node.properDescendants, ∀ d2 ∈ cache.node.properDescendants,
      absolutePath (names0 ++ d1.1) = absolutePath (names0 ++ d2.1) → d1.1 = d2.1 := by
    intro d1 hd1 d2 hd2 he
    have ht := congrArg Tokenizer he
    rw [Tokenizer_absolutePath _ (hvalid d1 hd1), Tokenizer_absolutePath _ (hvalid d2 hd2)] at ht
    exact List.append_cancel_left ht
  refine ⟨descendantPaths cache.path cache.node, ?_, hperm, ?_, ?_, ?_⟩
  · simpa using descendantNames_eq_descendantPaths cache [] hu
  · rw [hperm.length_eq, List.length_map]
  · rw [hperm.nodup_iff]
    have hch := chains_nodup cache.node hu
    have hmap : cache.node.properDescendants.map (fun d => absolutePath (names0 ++ d.1)) =
        (cache.node.properDescendants.map Prod.fst).map
          (fun ch => absolutePath (names0 ++ ch)) := by
      rw [List.map_map]
      rfl
    rw [hmap]
    refine hch.map_on ?_
    intro x hx y hy he
    obtain ⟨d1, hd1, rfl⟩ := List.mem_map.1 hx
    obtain ⟨d2, hd2, rfl⟩ := List.mem_map.1 hy
    exact hinj d1 hd1 d2 hd2 he
  · intro hmem
    obtain ⟨d, hd, he⟩ := List.mem_map.1 (hperm.mem_iff.1 hmem)
    rw [hpath] at he
    have ht := congrArg Tokenizer he
    rw [Tokenizer_absolutePath _ (hvalid d hd), Tokenizer_absolutePath _ h0] at ht
    have hnil : d.1 = [] := by
      have h2 : names0 ++ d.1 = names0 ++ [] := by rw [ht, List.append_nil]
      exact List.append_cancel_left h2
    exact chains_ne_nil cache.node d hd hnil

theorem descendantNames_lists_proper_descendants_witness :
    (⟨"/", sampleRoot⟩ : SceneCache Nat).path = absolutePath [] ∧
    sampleRoot.uniqueNames = true ∧ sampleRoot.validNames = true ∧
    sampleRoot.properDescendants.map (fun d => absolutePath ([] ++ d.1)) =
      ["/a", "/a/c", "/b"] ∧
    ∃ l : List String, descendantNames (⟨"/", sampleRoot⟩ : SceneCache Nat) [] = .ok l ∧
      l.Perm (sampleRoot.properDescendants.map (fun d => absolutePath ([] ++ d.1))) ∧
      l.length = sampleRoot.properDescendants.length ∧
      l.Nodup ∧ "/" ∉ l :=
  ⟨rfl, by decide, by decide, by decide,
    descendantNames_lists_proper_descendants ⟨"/", sampleRoot⟩ [] rfl
      (fun n hn => by cases hn) (by decide) (by decide)⟩

/-! ## World transforms -/

theorem worldTransform_loop_eq [Mul M] (toks : List String) (start : SceneCache M) (result : M) :
    (toks.foldlM
        (fun (st : SceneCache M × M) tIt =>
          match st.1.readableChild tIt with
          | .ok cache => Except.ok (cache, cache.readTransform * st.2)
          | .error e => Except.error e)
        (start, result)).map Prod.snd =
      (visited start toks).map
        (fun nodes => nodes.foldl (fun acc n => n.readTransform * acc) result) := by
  induction toks generalizing start result with
  | nil => rfl
  | cons t ts ih =>
    simp only [List.foldlM, visited]
    cases h : start.readableChild t with
    | error e => rfl
    | ok child =>
      simp only [bind, Except.bind]
      rw [ih child (child.readTransform * result)]
      cases visited child ts <;> rfl

theorem worldTransform_eq [Mul M] (c : Cache M) (fs : FileSystem M) (fileName path : String)
    (f : FileAndMutex M) (fileCache : LRUCache (FileSystem M) String (FileAndMutex M))
    (hget : c.m_fileCache.get fs fileName = (.ok f, fileCache)) :
    c.worldTransform fs fileName path =
      ((visited f.file (Tokenizer path)).map
        (fun nodes => nodes.foldl (fun acc n => n.readTransform * acc) f.file.readTransform),
        ⟨fileCache⟩) := by
  have he : c.entry fs fileName "/" = (.ok ⟨f, f.file⟩, ⟨fileCache⟩) := by
    rw [entry_eq_descend c fs fileName "/" f fileCache hget]
    rfl
  unfold Cache.worldTransform
  rw [he]
  simp only [Entry.sceneCache, worldTransform_loop_eq]

theorem translation_example :
    M44.translation 0 1 0 * (M44.translation 1 0 0 * M44.identity) = M44.translation 1 1 0 := by
  show M44.mul _ (M44.mul _ _) = _
  unfold M44.mul M44.translation M44.identity
  congr 1
  funext i j
  fin_cases i <;> fin_cases j <;> rfl

/-- C8: on an opened file, when the non-empty segments of the path all resolve,
to the nodes `nodes` in the order in which they are reached, `Cache::worldTransform`
returns the local transform of the root multiplied on the left by the local
transform of each of these nodes in turn, that is `Tn * (... * (T1 * Troot))`; for
a path without segments it returns the local transform of the root. With the
identity at the root, the translation `(1, 0, 0)` at `a` and the translation
`(0, 1, 0)` at `c`, the result for `/a/c` is the translation `(1, 1, 0)`. -/
theorem worldTransform_is_product :
    (∀ (T : Type) [Mul T] (c : Cache T) (fs : FileSystem T) (fileName : String)
      (f : FileAndMutex T) (fileCache : LRUCache (FileSystem T) String (FileAndMutex T)),
      c.m_fileCache.get fs fileName = (.ok f, fileCache) →
      ∀ (path : String) (nodes : List (SceneCache T)),
        visited f.file (segments path) = .ok nodes →
        (c.worldTransform fs fileName path).1 =
            .ok (nodes.foldl (fun acc n => n.readTransform * acc) f.file.readTransform) ∧
          (segments path = [] →
            (c.worldTransform fs fileName path).1 = .ok f.file.readTransform)) ∧
    ((Cache.new : Cache M44).worldTransform translatedFiles "moved.mdc" "/a/c").1 =
      .ok (M44.translation 1 1 0) := by
  refine ⟨?_, ?_⟩
  · intro T _ c fs fileName f fileCache hopen path nodes hnodes
    have hw := worldTransform_eq c fs fileName path f fileCache hopen
    rw [Tokenizer_eq_segments] at hw
    refine ⟨?_, fun hnil => ?_⟩
    · rw [hw, hnodes]
      rfl
    · rw [hw, hnil]
      rfl
  · rw [worldTransform_eq Cache.new translatedFiles "moved.mdc" "/a/c" ⟨⟨"/", translatedRoot⟩⟩
      ⟨fileCacheGetter, 200, [("moved.mdc", ⟨⟨"/", translatedRoot⟩⟩, 1)]⟩ rfl]
    show Except.ok (M44.translation 0 1 0 * (M44.translation 1 0 0 * M44.identity)) = _
    rw [translation_example]

theorem worldTransform_is_product_witness :
    (Cache.new : Cache M44).m_fileCache.get translatedFiles "moved.mdc" =
      (.ok ⟨⟨"/", translatedRoot⟩⟩,
        ⟨fileCacheGetter, 200, [("moved.mdc", ⟨⟨"/", translatedRoot⟩⟩, 1)]⟩) ∧
    visited (⟨"/", translatedRoot⟩ : SceneCache M44) (segments "/a") =
      .ok [⟨"/a", .mk "a" (M44.translation 1 0 0) false
        [.mk "c" (M44.translation 0 1 0) false []]⟩] ∧
    ((Cache.new : Cache M44).worldTransform translatedFiles "moved.mdc" "/a").1 =
      .ok (M44.translation 1 0 0 * M44.identity) :=
  ⟨rfl, rfl,
    (worldTransform_is_product.1 M44 Cache.new translatedFiles "moved.mdc"
      ⟨⟨"/", translatedRoot⟩⟩
      ⟨fileCacheGetter, 200, [("moved.mdc", ⟨⟨"/", translatedRoot⟩⟩, 1)]⟩ rfl "/a" _ rfl).1⟩

/-! ## The file store -/

theorem fileCacheGetter_cost (fs : FileSystem M) (fileName : String) (f : FileAndMutex M)
    (cost : Nat) (h : fileCacheGetter fs fileName = .ok (f, cost)) : cost = 1 := by
  unfold fileCacheGetter at h
  split at h
  · cases h; rfl
  · cases h

theorem limitCost_sublist {K V : Type} (b : Nat) (es : List (K × V × Nat)) :
    (LRUCache.limitCost b es).Sublist es := by
  induction es generalizing b with
  | nil => exact List.Sublist.refl _
  | cons e es ih =>
    unfold LRUCache.limitCost
    split
    · exact (ih _).cons₂ e
    · exact List.nil_sublist _

theorem limitCost_cost_le {K V : Type} (b : Nat) (es : List (K × V × Nat)) :
    ((LRUCache.limitCost b es).map (fun e => e.2.2)).sum ≤ b := by
  induction es generalizing b with
  | nil => simp [LRUCache.limitCost]
  | cons e es ih =>
    unfold LRUCache.limitCost
    split
    · next h =>
      have := ih (b - e.2.2)
      simp only [List.map_cons, List.sum_cons]
      omega
    · simp

theorem sum_of_ones {K V : Type} (es : List (K × V × Nat)) (h : ∀ e ∈ es, e.2.2 = 1) :
    (es.map (fun e => e.2.2)).sum = es.length := by
  induction es with
  | nil => rfl
  | cons e es ih =>
    simp only [List.map_cons, List.sum_cons, List.length_cons,
      h e (List.mem_cons_self _ _), ih (fun x hx => h x (List.mem_cons_of_mem _ hx))]
    omega

theorem entry_snd (c : Cache M) (fs : FileSystem M) (fileName path : String) :
    (c.entry fs fileName path).2 = ⟨(c.m_fileCache.get fs fileName).2⟩ := by
  unfold Cache.entry
  split <;> simp_all

theorem worldTransform_snd [Mul M] (c : Cache M) (fs : FileSystem M) (fileName path : String) :
    (c.worldTransform fs fileName path).2 = ⟨(c.m_fileCache.get fs fileName).2⟩ := by
  have h := entry_snd c fs fileName "/"
  unfold Cache.worldTransform
  split <;> simp_all

theorem invariant_new : (Cache.new : Cache M).Invariant := by
  refine ⟨rfl, rfl, ?_, Nat.zero_le _⟩
  intro e he
  cases he

theorem invariant_get (c : Cache M) (h : c.Invariant) (fs : FileSystem M) (fileName : String) :
    (⟨(c.m_fileCache.get fs fileName).2⟩ : Cache M).Invariant := by
  obtain ⟨hg, hm, hone, hlen⟩ := h
  unfold LRUCache.get
  cases hf : c.m_fileCache.entries.find? (fun e => e.1 = fileName) with
  | some e =>
    have hmem := List.mem_of_find?_eq_some hf
    have hkey := List.find?_some hf
    simp only [decide_eq_true_eq] at hkey
    refine ⟨hg, hm, ?_, ?_⟩
    · intro x hx
      rcases List.mem_cons.1 hx with h1 | h1
      · rw [h1]; exact hone e hmem
      · exact hone x (List.mem_filter.1 h1).1
    · have hlt : (c.m_fileCache.entries.filter (fun x => x.1 ≠ fileName)).length <
          c.m_fileCache.entries.length :=
        List.length_filter_lt_length_iff_exists.2 ⟨e, hmem, by simp [hkey]⟩
      simp only [List.length_cons]
      omega
  | none =>
    cases hgt : c.m_fileCache.getter fs fileName with
    | error ex => exact ⟨hg, hm, hone, hlen⟩
    | ok r =>
      obtain ⟨v, cost⟩ := r
      have hcost : cost = 1 := by
        rw [hg] at hgt
        exact fileCacheGetter_cost fs fileName v cost hgt
      subst hcost
      have hsub := limitCost_sublist c.m_fileCache.maxCost
        ((fileName, v, 1) :: c.m_fileCache.entries)
      have hall : ∀ x ∈ LRUCache.limitCost c.m_fileCache.maxCost
          ((fileName, v, 1) :: c.m_fileCache.entries), x.2.2 = 1 := by
        intro x hx
        rcases List.mem_cons.1 (hsub.subset hx) with h1 | h1
        · rw [h1]
        · exact hone x h1
      refine ⟨hg, hm, hall, ?_⟩
      have hle := limitCost_cost_le c.m_fileCache.maxCost
        ((fileName, v, 1) :: c.m_fileCache.entries)
      rw [sum_of_ones _ hall] at hle
      exact Nat.le_trans hle (Nat.le_of_eq hm)

theorem invariant_erase (c : Cache M) (h : c.Invariant) (fileName : String) :
    (c.erase fileName).Invariant := by
  obtain ⟨hg, hm, hone, hlen⟩ := h
  refine ⟨hg, hm, fun x hx => hone x (List.mem_filter.1 hx).1, ?_⟩
  exact Nat.le_trans (List.length_filter_le _ _) hlen

theorem invariant_step [Mul M] (c : Cache M) (h : c.Invariant) (fs : FileSystem M)
    (r : Request) : (c.step fs r).Invariant := by
  cases r with
  | entry fileName path =>
    show (c.entry fs fileName path).2.Invariant
    rw [entry_snd]
    exact invariant_get c h fs fileName
  | worldTransform fileName path =>
    show (c.worldTransform fs fileName path).2.Invariant
    rw [worldTransform_snd]
    exact invariant_get c h fs fileName
  | erase fileName => exact invariant_erase c h fileName

theorem invariant_run [Mul M] (calls : List (FileSystem M × Request)) (c : Cache M)
    (h : c.Invariant) : (c.run calls).Invariant := by
  induction calls generalizing c with
  | nil => exact h
  | cons r rs ih => exact ih _ (invariant_step c h r.1 r.2)

/-- C9: the loader `fileCacheGetter` charges every file it opens a cost of exactly
1, whatever its name and contents, and `Cache::Cache()` builds the store with a
maximum cost of 200; so after any sequence of calls of `entry`, `worldTransform`
and `erase` on a new `Cache`, every resident file has cost 1, the total cost is
the number of resident files, and that number is at most 200. -/
theorem file_cost_one_and_capacity :
    (∀ (T : Type) (fs : FileSystem T) (fileName : String),
      (fileCacheGetter fs fileName).toOption.map Prod.snd =
        (fs fileName).map (fun _ => 1)) ∧
    (∀ T : Type, (Cache.new : Cache T).m_fileCache.maxCost = 200 ∧
      (Cache.new : Cache T).m_fileCache.getter = fileCacheGetter) ∧
    (∀ (T : Type) [Mul T] (calls : List (FileSystem T × Request)),
      (∀ e ∈ ((Cache.new : Cache T).run calls).m_fileCache.entries, e.2.2 = 1) ∧
      ((Cache.new : Cache T).run calls).m_fileCache.currentCost =
        ((Cache.new : Cache T).run calls).m_fileCache.entries.length ∧
      ((Cache.new : Cache T).run calls).m_fileCache.entries.length ≤ 200) := by
  refine ⟨fun T fs fileName => ?_, fun T => ⟨rfl, rfl⟩, fun T _ calls => ?_⟩
  · unfold fileCacheGetter SceneCache.openRead
    cases fs fileName <;> rfl
  · obtain ⟨_, _, hone, hlen⟩ := invariant_run calls (Cache.new : Cache T) invariant_new
    exact ⟨hone, sum_of_ones _ hone, hlen⟩

/-! ## Failure of `worldTransform` and of `entry` -/

theorem visited_cons_ok {start child : SceneCache M} {t : String} (ts : List String)
    (hc : start.readableChild t = .ok child) :
    visited start (t :: ts) = (visited child ts).map (fun nodes => child :: nodes) := by
  simp only [visited, hc]

theorem visited_cons_error {start : SceneCache M} {t : String} {e : Exception}
    (ts : List String) (hc : start.readableChild t = .error e) :
    visited start (t :: ts) = .error e := by
  simp only [visited, hc]

theorem descend_cons_ok {start child : SceneCache M} {t : String} (ts : List String)
    (hc : start.readableChild t = .ok child) :
    descend start (t :: ts) = descend child ts := by
  simp only [descend, List.foldlM, hc]
  rfl

theorem descend_cons_error {start : SceneCache M} {t : String} {e : Exception}
    (ts : List String) (hc : start.readableChild t = .error e) :
    descend start (t :: ts) = .error e := by
  simp only [descend, List.foldlM, hc]
  rfl

theorem visited_error_iff (start : SceneCache M) (toks : List String) (e : Exception) :
    visited start toks = .error e ↔ descend start toks = .error e := by
  induction toks generalizing start with
  | nil => constructor <;> intro h <;> cases h
  | cons t ts ih =>
    cases hc : start.readableChild t with
    | error e0 =>
      rw [visited_cons_error ts hc, descend_cons_error ts hc]
      simp
    | ok child =>
      rw [visited_cons_ok ts hc, descend_cons_ok ts hc, ← ih child]
      cases visited child ts <;> simp [Except.map]

theorem visited_ok_descend (start : SceneCache M) (toks : List String)
    (nodes : List (SceneCache M)) (h : visited start toks = .ok nodes) :
    (nodes = [] ∧ toks = [] ∧ descend start toks = .ok start) ∨
      ∃ init last, nodes = init ++ [last] ∧ descend start toks = .ok last := by
  induction toks generalizing start nodes with
  | nil =>
    cases h
    exact Or.inl ⟨rfl, rfl, rfl⟩
  | cons t ts ih =>
    cases hc : start.readableChild t with
    | error e0 =>
      rw [visited_cons_error ts hc] at h
      cases h
    | ok child =>
      rw [visited_cons_ok ts hc] at h
      cases hv : visited child ts with
      | error e1 =>
        rw [hv] at h
        cases h
      | ok rest =>
        rw [hv] at h
        cases h
        right
        rcases ih child rest hv with ⟨h1, _, h3⟩ | ⟨init, last, h1, h2⟩
        · exact ⟨[], child, by rw [h1]; rfl, by rw [descend_cons_ok ts hc, h3]⟩
        · exact ⟨child :: init, last, by rw [h1]; rfl, by rw [descend_cons_ok ts hc, h2]⟩

theorem entry_of_get_error (c : Cache M) (fs : FileSystem M) (fileName path : String)
    (e : Exception) (fileCache : LRUCache (FileSystem M) String (FileAndMutex M))
    (hget : c.m_fileCache.get fs fileName = (.error e, fileCache)) :
    c.entry fs fileName path = (.error e, ⟨fileCache⟩) := by
  unfold Cache.entry
  rw [hget]

theorem worldTransform_of_get_error [Mul M] (c : Cache M) (fs : FileSystem M)
    (fileName path : String) (e : Exception)
    (fileCache : LRUCache (FileSystem M) String (FileAndMutex M))
    (hget : c.m_fileCache.get fs fileName = (.error e, fileCache)) :
    c.worldTransform fs fileName path = (.error e, ⟨fileCache⟩) := by
  unfold Cache.worldTransform
  rw [entry_of_get_error c fs fileName "/" e fileCache hget]

/-- C14: `Cache::worldTransform` fails exactly when `Cache::entry` fails for the
same file and path, and with the same exception; when both succeed, either the
path has no segment and the result is the local transform of the node that
`entry` returns (the root), or that node is the last node visited and its local
transform is the last factor multiplied, on the left, into the result. -/
theorem worldTransform_fails_iff_entry_fails :
    (∀ (T : Type) [Mul T] (c : Cache T) (fs : FileSystem T) (fileName path : String)
      (e : Exception),
      (c.worldTransform fs fileName path).1 = .error e ↔
        (c.entry fs fileName path).1 = .error e) ∧
    (∀ (T : Type) [Mul T] (c : Cache T) (fs : FileSystem T) (fileName path : String)
      (m : T) (en : Entry T),
      (c.worldTransform fs fileName path).1 = .ok m →
      (c.entry fs fileName path).1 = .ok en →
      (segments path = [] ∧ en.m_entry = en.m_fileAndMutex.file ∧
        m = en.m_entry.readTransform) ∨
      ∃ init : List (SceneCache T),
        visited en.m_fileAndMutex.file (segments path) = .ok (init ++ [en.m_entry]) ∧
        m = en.m_entry.readTransform *
          init.foldl (fun acc n => n.readTransform * acc)
            en.m_fileAndMutex.file.readTransform) := by
  refine ⟨?_, ?_⟩
  · intro T _ c fs fileName path e
    rcases hget : c.m_fileCache.get fs fileName with ⟨r, fileCache⟩
    cases r with
    | error e0 =>
      rw [worldTransform_of_get_error c fs fileName path e0 fileCache hget,
        entry_of_get_error c fs fileName path e0 fileCache hget]
      simp
    | ok f =>
      rw [worldTransform_eq c fs fileName path f fileCache hget,
        entry_eq_descend c fs fileName path f fileCache hget]
      have hi := visited_error_iff f.file (Tokenizer path) e
      cases hv : visited f.file (Tokenizer path) <;>
        cases hd : descend f.file (Tokenizer path) <;>
        simp_all [Except.map]
  · intro T _ c fs fileName path m en hw he
    rcases hget : c.m_fileCache.get fs fileName with ⟨r, fileCache⟩
    cases r with
    | error e0 =>
      rw [entry_of_get_error c fs fileName path e0 fileCache hget] at he
      cases he
    | ok f =>
      rw [worldTransform_eq c fs fileName path f fileCache hget, Tokenizer_eq_segments] at hw
      rw [entry_eq_descend c fs fileName path f fileCache hget, Tokenizer_eq_segments] at he
      cases hv : visited f.file (segments path) with
      | error e1 =>
        rw [hv] at hw
        cases hw
      | ok nodes =>
        rw [hv] at hw
        simp only [Except.map, Except.ok.injEq] at hw
        rcases visited_ok_descend f.file (segments path) nodes hv with
          ⟨h1, h2, h3⟩ | ⟨init, last, h1, h2⟩
        · rw [h3] at he
          simp only [Except.map, Except.ok.injEq] at he
          subst he
          subst h1
          exact Or.inl ⟨h2, rfl, hw.symm⟩
        · rw [h2] at he
          simp only [Except.map, Except.ok.injEq] at he
          subst he
          subst h1
          refine Or.inr ⟨init, hv, ?_⟩
          rw [← hw, List.foldl_append]
          rfl

theorem worldTransform_fails_iff_entry_fails_witness :
    ((Cache.new : Cache M44).worldTransform translatedFiles "moved.mdc" "/a/x").1 =
      .error (.noSuchChild "/a" "x") ∧
    ((Cache.new : Cache M44).entry translatedFiles "moved.mdc" "/a/x").1 =
      .error (.noSuchChild "/a" "x") :=
  ⟨rfl, (worldTransform_fails_iff_entry_fails.1 M44 Cache.new translatedFiles "moved.mdc"
    "/a/x" (.noSuchChild "/a" "x")).1 rfl⟩

/-! ## The root menu -/

theorem createMenuLoop_spec (values : List String) (menu : Menu) (pos : Nat) :
    (createMenuLoop menu pos values).2 = pos + min values.length (1500 - pos) ∧
    ∀ j, (createMenuLoop menu pos values).1 j =
      if pos ≤ j ∧ j < pos + min values.length (1500 - pos) then
        ⟨values[j - pos]?, values[j - pos]?⟩
      else menu j := by
  induction values generalizing menu pos with
  | nil =>
    refine ⟨by simp [createMenuLoop], fun j => ?_⟩
    have : ¬ (pos ≤ j ∧ j < pos + min ([] : List String).length (1500 - pos)) := by
      simp only [List.length_nil, Nat.zero_min, Nat.add_zero]
      omega
    simp only [createMenuLoop, this, if_false]
  | cons v vs ih =>
    by_cases hp : pos < 1500
    · obtain ⟨h1, h2⟩ := ih
        ((menu.set pos ((menu pos).setToken (some v))).set pos
          (((menu.set pos ((menu pos).setToken (some v))) pos).setLabel (some v))) (pos + 1)
      simp only [createMenuLoop, hp, if_true]
      refine ⟨?_, fun j => ?_⟩
      · rw [h1]
        simp only [List.length_cons]
        omega
      · rw [h2 j]
        by_cases hj : j = pos
        · subst hj
          have c1 : ¬ (j + 1 ≤ j ∧ j < j + 1 + min vs.length (1500 - (j + 1))) := by omega
          have c2 : j ≤ j ∧ j < j + min (v :: vs).length (1500 - j) := by
            simp only [List.length_cons]
            omega
          rw [if_neg c1, if_pos c2]
          simp [Menu.set, PRM_Name.setToken, PRM_Name.setLabel]
        · by_cases hr : pos + 1 ≤ j ∧ j < pos + 1 + min vs.length (1500 - (pos + 1))
          · have c2 : pos ≤ j ∧ j < pos + min (v :: vs).length (1500 - pos) := by
              simp only [List.length_cons]
              omega
            have hidx : j - pos = (j - (pos + 1)) + 1 := by omega
            rw [if_pos hr, if_pos c2, hidx, List.getElem?_cons_succ]
          · have c2 : ¬ (pos ≤ j ∧ j < pos + min (v :: vs).length (1500 - pos)) := by
              simp only [List.length_cons]
              omega
            rw [if_neg hr, if_neg c2]
            simp [Menu.set, hj]
    · refine ⟨?_, fun j => ?_⟩
      · simp only [createMenuLoop, hp, if_false]
        omega
      · have c2 : ¬ (pos ≤ j ∧ j < pos + min (v :: vs).length (1500 - pos)) := by
          omega
        simp only [createMenuLoop, hp, if_false, c2]

theorem createMenu_apply (menu : Menu) (values : List String) (j : Nat) :
    createMenu menu values j =
      if j = min values.length 1499 + 1 then (menu j).setToken none
      else if 1 ≤ j ∧ j < min values.length 1499 + 1 then
        ⟨values[j - 1]?, values[j - 1]?⟩
      else menu j := by
  obtain ⟨h1, h2⟩ := createMenuLoop_spec values menu 1
  have hk : 1 + min values.length (1500 - 1) = min values.length 1499 + 1 := by omega
  rw [hk] at h1
  simp only [hk] at h2
  unfold createMenu
  rcases hl : createMenuLoop menu 1 values with ⟨m, pos⟩
  rw [hl] at h1 h2
  simp only at h1 h2 ⊢
  subst h1
  by_cases hj : j = min values.length 1499 + 1
  · subst hj
    have hc : ¬ (1 ≤ min values.length 1499 + 1 ∧
        min values.length 1499 + 1 < min values.length 1499 + 1) := by omega
    simp only [Menu.set, if_true, h2, if_neg hc]
  · simp only [Menu.set, if_neg hj, h2]

/-- C11: for a list of `n` values, `createMenu` writes `values[i]` as the token and
the label of slot `i + 1` for exactly the indices `i < min n 1499`, in order,
leaves slot 0 and every slot after the terminator untouched, and writes the
null token that ends the menu at slot `min n 1499 + 1`, whose label it leaves
alone. That slot is at most 1500, so a menu whose slot 0 holds an item shows at
most 1500 items, for a list of any length; this holds of every menu that
`buildRootMenu` completes, whose slot 0 is `"/"`. -/
theorem createMenu_writes_capped_slots :
    (∀ (menu : Menu) (values : List String),
      (∀ i, i < min values.length 1499 →
        ∃ v, values[i]? = some v ∧ createMenu menu values (i + 1) = ⟨some v, some v⟩) ∧
      createMenu menu values 0 = menu 0 ∧
      (createMenu menu values (min values.length 1499 + 1)).token = none ∧
      (createMenu menu values (min values.length 1499 + 1)).label =
        (menu (min values.length 1499 + 1)).label ∧
      (∀ j, min values.length 1499 + 1 < j → createMenu menu values j = menu j) ∧
      min values.length 1499 + 1 ≤ 1500 ∧
      ((menu 0).token ≠ none →
        (createMenu menu values).Shows (min values.length 1499 + 1))) ∧
    (∀ (T : Type) (node : Node) (menu : Menu) (maxSize : Int)
      (pathExists : String → Except Exception Bool) (fs : FileSystem T) (cache : Cache T)
      (menu2 : Menu) (cache2 : Cache T),
      buildRootMenu (some node) menu maxSize pathExists fs cache = (menu2, cache2, .ok ()) →
      menu2 0 = ⟨some "/", some "/"⟩ ∧ ∃ k, 1 ≤ k ∧ k ≤ 1500 ∧ menu2.Shows k) := by
  have part1 : ∀ (menu : Menu) (values : List String),
      (∀ i, i < min values.length 1499 →
        ∃ v, values[i]? = some v ∧ createMenu menu values (i + 1) = ⟨some v, some v⟩) ∧
      createMenu menu values 0 = menu 0 ∧
      (createMenu menu values (min values.length 1499 + 1)).token = none ∧
      (createMenu menu values (min values.length 1499 + 1)).label =
        (menu (min values.length 1499 + 1)).label ∧
      (∀ j, min values.length 1499 + 1 < j → createMenu menu values j = menu j) ∧
      min values.length 1499 + 1 ≤ 1500 ∧
      ((menu 0).token ≠ none →
        (createMenu menu values).Shows (min values.length 1499 + 1)) := by
    intro menu values
    have hslot : ∀ i, i < min values.length 1499 →
        ∃ v, values[i]? = some v ∧ createMenu menu values (i + 1) = ⟨some v, some v⟩ := by
      intro i hi
      have hlt : i < values.length := by omega
      refine ⟨values[i], List.getElem?_eq_getElem hlt, ?_⟩
      rw [createMenu_apply, if_neg (by omega), if_pos (by omega)]
      simp [List.getElem?_eq_getElem hlt]
    have hzero : createMenu menu values 0 = menu 0 := by
      rw [createMenu_apply, if_neg (by omega), if_neg (by omega)]
    have hterm : createMenu menu values (min values.length 1499 + 1) =
        (menu (min values.length 1499 + 1)).setToken none := by
      rw [createMenu_apply, if_pos rfl]
    refine ⟨hslot, hzero, by rw [hterm]; rfl, by rw [hterm]; rfl, ?_, by omega, ?_⟩
    · intro j hj
      rw [createMenu_apply, if_neg (by omega), if_neg (by omega)]
    · intro h0
      refine ⟨fun j hj => ?_, by rw [hterm]; rfl⟩
      cases j with
      | zero => rw [hzero]; exact h0
      | succ i =>
        obtain ⟨v, _, hv⟩ := hslot i (by omega)
        rw [hv]
        simp
  refine ⟨part1, ?_⟩
  intro T node menu maxSize pathExists fs cache menu2 cache2 h
  unfold buildRootMenu at h
  simp only at h
  split at h
  · simp only [Prod.mk.injEq] at h
    exact absurd h.2.2 (by simp)
  · simp only [Prod.mk.injEq] at h
    obtain ⟨hm, _, _⟩ := h
    subst hm
    refine ⟨by simp [Menu.set, PRM_Name.setToken, PRM_Name.setLabel], 1, le_refl _,
      by omega, ?_⟩
    refine ⟨fun j hj => ?_, by simp [Menu.set, PRM_Name.setToken]⟩
    have hj0 : j = 0 := by omega
    subst hj0
    simp [Menu.set, PRM_Name.setToken, PRM_Name.setLabel]
  · split at h
    · simp only [Prod.mk.injEq] at h
      exact absurd h.2.2 (by simp)
    · split at h
      · simp only [Prod.mk.injEq] at h
        exact absurd h.2.2 (by simp)
      · next descendants _ =>
        simp only [Prod.mk.injEq] at h
        obtain ⟨hm, _, _⟩ := h
        subst hm
        obtain ⟨_, hzero, _, _, _, hle, hshow⟩ := part1
          ((menu.set 0 ((menu 0).setToken (some "/"))).set 0
            (((menu.set 0 ((menu 0).setToken (some "/"))) 0).setLabel (some "/")))
          descendants
        refine ⟨?_, min descendants.length 1499 + 1, by omega, hle, hshow ?_⟩
        · rw [hzero]
          simp [Menu.set, PRM_Name.setToken, PRM_Name.setLabel]
        · simp [Menu.set, PRM_Name.setToken, PRM_Name.setLabel]

theorem createMenu_writes_capped_slots_witness :
    (0 < min ["/a", "/b", "/a/c"].length 1499 ∧ 1 < min ["/a", "/b", "/a/c"].length 1499) ∧
    (∃ v, ["/a", "/b", "/a/c"][1]? = some v ∧
      createMenu (fun _ => ⟨none, none⟩) ["/a", "/b", "/a/c"] 2 = ⟨some v, some v⟩) ∧
    (createMenu (fun _ => ⟨none, none⟩) ["/a", "/b", "/a/c"] 4).token = none ∧
    (buildRootMenu (some ⟨"", "/"⟩) (fun _ => ⟨none, none⟩) 8191 (fun _ => .ok true)
        sampleFiles Cache.new).2.2 = .ok () ∧
    (buildRootMenu (some ⟨"", "/"⟩) (fun _ => ⟨none, none⟩) 8191 (fun _ => .ok true)
        sampleFiles Cache.new).1 0 = ⟨some "/", some "/"⟩ :=
  ⟨by decide,
    (createMenu_writes_capped_slots.1 (fun _ => ⟨none, none⟩) ["/a", "/b", "/a/c"]).1 1
      (by decide),
    (createMenu_writes_capped_slots.1 (fun _ => ⟨none, none⟩) ["/a", "/b", "/a/c"]).2.2.1,
    rfl,
    (createMenu_writes_capped_slots.2 Nat ⟨"", "/"⟩ (fun _ => ⟨none, none⟩) 8191
      (fun _ => .ok true) sampleFiles Cache.new
      (buildRootMenu (some ⟨"", "/"⟩) (fun _ => ⟨none, none⟩) 8191 (fun _ => .ok true)
        sampleFiles Cache.new).1
      (buildRootMenu (some ⟨"", "/"⟩) (fun _ => ⟨none, none⟩) 8191 (fun _ => .ok true)
        sampleFiles Cache.new).2.1 rfl).1⟩

/-! ## The file parameter -/

theorem afterLast_suffix (l : List Char) (p : Char → Bool) :
    (l.reverse.takeWhile p).reverse <:+ l := by
  have h := List.takeWhile_prefix p (l := l.reverse)
  have h2 := List.reverse_suffix.2 h
  rwa [List.reverse_reverse] at h2

theorem dropWhile_head_false {α : Type} (p : α → Bool) (l : List α) (y : α) (ys : List α)
    (h : l.dropWhile p = y :: ys) : p y = false := by
  induction l with
  | nil => cases h
  | cons x xs ih =>
    rw [List.dropWhile_cons] at h
    split at h
    · exact ih h
    · next hx =>
      cases h
      simpa using hx

theorem cons_afterLast_suffix (l : List Char) (c : Char) (hc : c ∈ l) :
    (c :: (l.reverse.takeWhile (fun x => x ≠ c)).reverse) <:+ l := by
  have hsplit := List.takeWhile_append_dropWhile (fun x => decide (x ≠ c)) l.reverse
  cases hd : l.reverse.dropWhile (fun x => decide (x ≠ c)) with
  | nil =>
    rw [hd, List.append_nil] at hsplit
    have hmem : c ∈ l.reverse.takeWhile (fun x => decide (x ≠ c)) := by
      rw [hsplit]
      exact List.mem_reverse.2 hc
    have := List.mem_takeWhile_imp hmem
    simp at this
  | cons y ys =>
    have hy := dropWhile_head_false _ _ y ys hd
    have hyc : y = c := by simpa using hy
    rw [hd, hyc] at hsplit
    refine ⟨ys.reverse, ?_⟩
    have h3 := congrArg List.reverse hsplit
    simp only [List.reverse_append, List.reverse_cons, List.reverse_reverse] at h3
    simpa using h3

theorem pathFilename_suffix_or_short (p : List Char) :
    pathFilename p <:+ p ∨ (pathFilename p).length ≤ 1 := by
  unfold pathFilename
  split_ifs
  · right; simp
  · right; simp
  · right; simp
  · left
    exact afterLast_suffix p _

theorem pathExtension_of_suffix (stem : String) :
    pathExtension (stem ++ ".mdc") = ".mdc" := by
  have hdata : (stem ++ ".mdc").data = stem.data ++ ['.', 'm', 'd', 'c'] := by
    rw [String.data_append]
  have hname : pathFilename (stem ++ ".mdc").data =
      (stem.data.reverse.takeWhile (fun c => c ≠ '/')).reverse ++ ['.', 'm', 'd', 'c'] := by
    unfold pathFilename
    rw [hdata]
    simp [List.takeWhile_cons]
  unfold pathExtension
  simp only [hname]
  have h1 : ¬ ((stem.data.reverse.takeWhile (fun c => c ≠ '/')).reverse ++
      ['.', 'm', 'd', 'c'] = ['.'] ∨
      (stem.data.reverse.takeWhile (fun c => c ≠ '/')).reverse ++
        ['.', 'm', 'd', 'c'] = ['.', '.']) := by
    intro h
    rcases h with h | h <;>
    · have := congrArg List.length h
      simp at this
  rw [if_neg h1, if_pos (by simp)]
  simp [List.takeWhile_cons]

theorem pathExtension_mdc_iff (p : String) :
    pathExtension p = ".mdc" ↔ ∃ stem : String, p = stem ++ ".mdc" := by
  constructor
  · intro h
    unfold pathExtension at h
    simp only at h
    split at h
    · exact absurd h (by decide)
    · split at h
      · next hdot =>
        have hd := congrArg String.data h
        simp only at hd
        have hs := cons_afterLast_suffix (pathFilename p.data) '.' hdot
        rw [hd] at hs
        have hsp : ".mdc".data <:+ p.data := by
          rcases pathFilename_suffix_or_short p.data with h1 | h1
          · exact hs.trans h1
          · have hlen := hs.length_le
            simp only [List.length_cons, List.length_nil] at hlen
            omega
        obtain ⟨t, ht⟩ := hsp
        refine ⟨String.mk t, String.ext ?_⟩
        rw [String.data_append, ← ht]
      · exact absurd h (by decide)
  · rintro ⟨stem, rfl⟩
    exact pathExtension_of_suffix stem

theorem ensureFile_fst (node : Node) (pathExists : String → Except Exception Bool) :
    (node.ensureFile pathExists).1 =
      if pathExtension node.getFile = ".mdc" then pathExists node.getFile else .ok false := by
  unfold Node.ensureFile
  simp only
  split
  · split <;> simp_all
  · rfl

theorem ensureFile_snd (node : Node) (pathExists : String → Except Exception Bool) :
    (node.ensureFile pathExists).2 = node.getFile := by
  unfold Node.ensureFile
  simp only
  split
  · split <;> rfl
  · rfl

/-- C12, as amended: `ensureFile` always writes the value of `getFile()` to `file`,
which is `"/"` when the parameter is empty and the parameter itself otherwise. It
returns true exactly when the extension of that path is `".mdc"`, that is when
the path ends with the characters `.mdc` in this case, and the existence check
answers true. It returns false exactly when the extension differs, in which
case the disk is not consulted, or the existence check answers false. It raises
exactly when the extension is `".mdc"` and the existence check itself raises,
with that same error. A path ending in `.MDC` and the empty parameter give false
on every disk. -/
theorem ensureFile_iff_mdc_and_exists (node : Node)
    (pathExists : String → Except Exception Bool) :
    (node.ensureFile pathExists).2 = node.getFile ∧
    ((node.ensureFile pathExists).1 = .ok true ↔
      pathExtension node.getFile = ".mdc" ∧ pathExists node.getFile = .ok true) ∧
    ((node.ensureFile pathExists).1 = .ok false ↔
      pathExtension node.getFile ≠ ".mdc" ∨
        (pathExtension node.getFile = ".mdc" ∧ pathExists node.getFile = .ok false)) ∧
    (∀ e, (node.ensureFile pathExists).1 = .error e ↔
      pathExtension node.getFile = ".mdc" ∧ pathExists node.getFile = .error e) ∧
    (pathExtension node.getFile = ".mdc" ↔ ∃ stem : String, node.getFile = stem ++ ".mdc") ∧
    (node.pFile = "" → node.getFile = "/" ∧ (node.ensureFile pathExists).1 = .ok false) ∧
    (node.pFile ≠ "" → node.getFile = node.pFile) ∧
    (∀ stem : String, node.pFile = stem ++ ".MDC" →
      (node.ensureFile pathExists).1 = .ok false) := by
  have hres := ensureFile_fst node pathExists
  refine ⟨ensureFile_snd node pathExists, ?_, ?_, ?_, pathExtension_mdc_iff _, ?_, ?_, ?_⟩
  · rw [hres]
    by_cases hx : pathExtension node.getFile = ".mdc"
    · simp [hx]
    · simp [hx]
  · rw [hres]
    by_cases hx : pathExtension node.getFile = ".mdc"
    · simp [hx]
    · simp [hx]
  · intro e
    rw [hres]
    by_cases hx : pathExtension node.getFile = ".mdc"
    · simp [hx]
    · simp [hx]
  · intro he
    have hg : node.getFile = "/" := by simp [Node.getFile, he]
    refine ⟨hg, ?_⟩
    rw [hres, hg]
    have hno : pathExtension "/" ≠ ".mdc" := by decide
    rw [if_neg hno]
  · intro he
    simp [Node.getFile, he]
  · intro stem hs
    have hne : node.pFile ≠ "" := by
      intro h0
      rw [h0] at hs
      have hlen := congrArg String.length hs
      rw [String.length_append] at hlen
      have h4 : ".MDC".length = 4 := rfl
      have h5 : "".length = 0 := rfl
      omega
    have hg : node.getFile = stem ++ ".MDC" := by
      show (if node.pFile = "" then "/" else node.pFile) = _
      rw [if_neg hne, hs]
    have hno : pathExtension (stem ++ ".MDC") ≠ ".mdc" := by
      intro hx
      obtain ⟨t, ht⟩ := (pathExtension_mdc_iff _).1 hx
      have hd := congrArg String.data ht
      simp only [String.data_append] at hd
      have hrev := congrArg List.reverse hd
      simp only [List.reverse_append] at hrev
      have h1 : (".MDC".data.reverse ++ stem.data.reverse).head? =
          (".mdc".data.reverse ++ t.data.reverse).head? := by rw [hrev]
      simp at h1
    rw [hres, hg, if_neg hno]

theorem ensureFile_iff_mdc_and_exists_witness :
    (⟨"scene.mdc", "/"⟩ : Node).pFile ≠ "" ∧
    (⟨"", "/"⟩ : Node).pFile = "" ∧
    ((⟨"scene.mdc", "/"⟩ : Node).ensureFile (fun _ => .ok true)).1 = .ok true ∧
    (⟨"scene.mdc", "/"⟩ : Node).getFile = "scene.mdc" ∧
    ((⟨"", "/"⟩ : Node).getFile = "/" ∧
      ((⟨"", "/"⟩ : Node).ensureFile (fun _ => .ok true)).1 = .ok false) ∧
    ((⟨"scene.MDC", "/"⟩ : Node).ensureFile (fun _ => .ok true)).1 = .ok false ∧
    ((⟨"/root/x.mdc", "/"⟩ : Node).ensureFile deniedDisk).1 =
      .error (.filesystemError "/root/x.mdc") :=
  ⟨by decide, rfl, rfl,
    (ensureFile_iff_mdc_and_exists ⟨"scene.mdc", "/"⟩
      (fun _ => .ok true)).2.2.2.2.2.2.1 (by decide),
    (ensureFile_iff_mdc_and_exists ⟨"", "/"⟩ (fun _ => .ok true)).2.2.2.2.2.1 rfl,
    (ensureFile_iff_mdc_and_exists ⟨"scene.MDC", "/"⟩
      (fun _ => .ok true)).2.2.2.2.2.2.2 "scene" rfl,
    ((ensureFile_iff_mdc_and_exists ⟨"/root/x.mdc", "/"⟩ deniedDisk).2.2.2.1
      (.filesystemError "/root/x.mdc")).2 ⟨by decide, rfl⟩⟩

/-- C12, as stated, fails: for the file parameter `/root/x.mdc` on a disk where the
status of that path cannot be determined, the extension is `".mdc"`, the
existence check raises, and `ensureFile` raises with it instead of returning
false; the value written to `file` is still that of `getFile()`. -/
theorem ensureFile_can_raise :
    pathExtension (⟨"/root/x.mdc", "/"⟩ : Node).getFile = ".mdc" ∧
    (⟨"/root/x.mdc", "/"⟩ : Node).ensureFile deniedDisk =
      (.error (.filesystemError "/root/x.mdc"), "/root/x.mdc") ∧
    ¬ ∃ b : Bool, ((⟨"/root/x.mdc", "/"⟩ : Node).ensureFile deniedDisk).1 = .ok b := by
  refine ⟨by decide, rfl, ?_⟩
  rintro ⟨b, hb⟩
  have hr : ((⟨"/root/x.mdc", "/"⟩ : Node).ensureFile deniedDisk).1 =
      .error (.filesystemError "/root/x.mdc") := rfl
  rw [hr] at hb
  cases hb

/-! ## Enumerated paths resolve -/

theorem descend_path (start h : SceneCache M) (chain : List String)
    (hd : descend start chain = .ok h) :
    h.path = chain.foldl SceneCache.childPath start.path := by
  induction chain generalizing start with
  | nil =>
    cases hd
    rfl
  | cons n ns ih =>
    cases hc : start.readableChild n with
    | error e =>
      rw [descend_cons_error ns hc] at hd
      cases hd
    | ok child =>
      rw [descend_cons_ok ns hc] at hd
      rw [ih child hd, (readableChild_ok hc).1]
      rfl

theorem descendantNames_reachable (cache : SceneCache M) (hv : cache.node.validNames = true) :
    ∃ l : List String,
      (∀ p ∈ l, ∃ chain h, (∀ n ∈ chain, validName n = true) ∧
        descend cache chain = .ok h ∧ h.path = p) ∧
      ∀ acc, descendantNames cache acc = .ok (acc ++ l) := by
  revert hv
  induction cache, ([] : List String) using descendantNames.induct with
  | case1 cache _ ih =>
    intro hv
    have hval := validNames_children hv
    obtain ⟨subs, hsubs, hfold⟩ := visit_fold cache descendantNames
      (fun _ l => ∀ p ∈ l, ∃ chain h, (∀ n ∈ chain, validName n = true) ∧
        descend cache chain = .ok h ∧ h.path = p)
      cache.childNames (fun _ h => h)
      (fun n child hc => by
        obtain ⟨_, hmem, hname⟩ := readableChild_ok hc
        have hvk := hval child.node hmem
        obtain ⟨l, h1, h2⟩ := ih [] n child hc hvk.2
        refine ⟨l, ?_, h2⟩
        intro p hp
        obtain ⟨chain, h, hvalid, hd, hpath⟩ := h1 p hp
        refine ⟨n :: chain, h, ?_, ?_, hpath⟩
        · intro m hm
          rcases List.mem_cons.1 hm with h3 | h3
          · rw [h3, ← hname]
            exact hvk.1
          · exact hvalid m h3
        · rw [descend_cons_ok chain hc]
          exact hd)
    refine ⟨cache.childNames.map (SceneCache.childPath cache.path) ++ subs.flatten, ?_,
      fun acc => ?_⟩
    · intro p hp
      rcases List.mem_append.1 hp with h1 | h1
      · obtain ⟨n, hn, rfl⟩ := List.mem_map.1 h1
        obtain ⟨k, hk, hkn, hr⟩ := readableChild_of_mem cache n hn
        refine ⟨[n], ⟨SceneCache.childPath cache.path n, k⟩, ?_, ?_, rfl⟩
        · intro m hm
          rw [List.mem_singleton.1 hm, ← hkn]
          exact (hval k hk).1
        · rw [descend_cons_ok [] hr]
          rfl
      · obtain ⟨sub, hsub, hps⟩ := List.mem_flatten.1 h1
        obtain ⟨child, _, hq⟩ := forall₂_exists_of_mem_right hsubs hsub
        exact hq.1 p hps
    · rw [descendantNames_unfold, hfold, List.append_assoc]

/-- C13: in an opened file whose names are non-empty and free of `'/'`, every
string that `descendantNames` emits for the root resolves through `Cache::entry`
without failure, to a node whose path is that same string; so does `"/"`, and
so every token that `createMenu` puts in the root menu is a valid root path. -/
theorem enumerated_paths_resolve (c : Cache M) (fs : FileSystem M) (fileName : String)
    (f : FileAndMutex M) (fileCache : LRUCache (FileSystem M) String (FileAndMutex M))
    (hopen : c.m_fileCache.get fs fileName = (.ok f, fileCache))
    (hroot : f.file.path = "/") (hv : f.file.node.validNames = true) :
    ∃ l : List String, descendantNames f.file [] = .ok l ∧
      (∀ p ∈ l, ∃ en, (c.entry fs fileName p).1 = .ok en ∧ en.m_entry.path = p) ∧
      (∃ en, (c.entry fs fileName "/").1 = .ok en ∧ en.m_entry.path = "/") ∧
      (∀ (menu : Menu) (j : Nat) (s : String), 1 ≤ j → j ≤ min l.length 1499 →
        (createMenu menu l j).token = some s →
        ∃ en, (c.entry fs fileName s).1 = .ok en ∧ en.m_entry.path = s) := by
  obtain ⟨l, hreach, hl⟩ := descendantNames_reachable f.file hv
  have hres : ∀ p ∈ l, ∃ en, (c.entry fs fileName p).1 = .ok en ∧ en.m_entry.path = p := by
    intro p hp
    obtain ⟨chain, h, hvalid, hd, hpath⟩ := hreach p hp
    have hfold := descend_path f.file h chain hd
    rw [hroot, ← absolutePath_nil, foldl_childPath_absolutePath chain []
      (fun m hm => ((validName_iff m).1 (hvalid m (by simpa using hm))).1),
      List.nil_append] at hfold
    have htok : Tokenizer p = chain := by
      rw [← hpath, hfold]
      exact Tokenizer_absolutePath chain hvalid
    refine ⟨⟨f, h⟩, ?_, hpath⟩
    rw [entry_eq_descend c fs fileName p f fileCache hopen, htok, hd]
    rfl
  refine ⟨l, by simpa using hl [], hres, ?_, ?_⟩
  · refine ⟨⟨f, f.file⟩, ?_, hroot⟩
    rw [entry_eq_descend c fs fileName "/" f fileCache hopen]
    rfl
  · intro menu j s h1 h2 htoken
    rw [createMenu_apply, if_neg (by omega), if_pos (by omega)] at htoken
    exact hres s (List.getElem?_mem htoken)

theorem enumerated_paths_resolve_witness :
    (Cache.new : Cache Nat).m_fileCache.get sampleFiles "scene.mdc" =
      (.ok ⟨⟨"/", sampleRoot⟩⟩,
        ⟨fileCacheGetter, 200, [("scene.mdc", ⟨⟨"/", sampleRoot⟩⟩, 1)]⟩) ∧
    sampleRoot.validNames = true ∧
    ∃ l : List String, descendantNames (⟨"/", sampleRoot⟩ : SceneCache Nat) [] = .ok l ∧
      (∀ p ∈ l, ∃ en, ((Cache.new : Cache Nat).entry sampleFiles "scene.mdc" p).1 = .ok en ∧
        en.m_entry.path = p) ∧
      (∃ en, ((Cache.new : Cache Nat).entry sampleFiles "scene.mdc" "/").1 = .ok en ∧
        en.m_entry.path = "/") ∧
      (∀ (menu : Menu) (j : Nat) (s : String), 1 ≤ j → j ≤ min l.length 1499 →
        (createMenu menu l j).token = some s →
        ∃ en, ((Cache.new : Cache Nat).entry sampleFiles "scene.mdc" s).1 = .ok en ∧
          en.m_entry.path = s) :=
  ⟨rfl, by decide,
    enumerated_paths_resolve Cache.new sampleFiles "scene.mdc" ⟨⟨"/", sampleRoot⟩⟩
      ⟨fileCacheGetter, 200, [("scene.mdc", ⟨⟨"/", sampleRoot⟩⟩, 1)]⟩ rfl rfl (by decide)⟩

end SceneCacheNode
